import Mathlib

/-!
Verification development for the market-data batch script
(src/run_market_ohlcv.py): it fetches daily OHLCV price history plus
short-sale volume and short-sale balance tables for one ticker, normalizes
each table (column renaming, date formatting, numeric coercion,
deduplication), left-joins them on the date column, fills missing
short-sale values with zero, sorts descending by date and writes a CSV.

The script's pandas DataFrames are embedded as lists of rows of cells.
Machine floats are modelled by exact rationals: every numeric literal the
pipeline manipulates (parsed decimal strings, zero fills) is exactly
representable, and no claim depends on rounding.  Fallible pandas
operations (KeyError on a missing column, ValueError from date parsing)
are modelled with the Except monad; the top-level try/except handler of
the script is modelled by a runner that turns an error into exit code 1
and an "[ERROR] "-prefixed standard-error line.
-/

set_option maxHeartbeats 1000000

namespace Amicogen

/-- An exact scaled-decimal number: the value `m / 10 ^ e`.  Every number
this pipeline manipulates originates from a decimal literal or a zero
fill, so floats are modelled exactly, with no rounding. -/
structure Dec where
  m : Int
  e : Nat
deriving DecidableEq, Repr

/-- The rational value denoted by a scaled decimal. -/
def Dec.toRat (x : Dec) : ℚ := (x.m : ℚ) / (10 : ℚ) ^ x.e

/-- Value comparison of scaled decimals (cross-multiplied). -/
def Dec.le (x y : Dec) : Bool := x.m * (10 : Int) ^ y.e ≤ y.m * (10 : Int) ^ x.e

/-- A cell of a DataFrame: a numeric value (float, modelled exactly as a
scaled decimal), a string, a datetime (day ordinal, 0 = 1970-01-01), or a
missing value (NaN / NaT / None). -/
inductive Cell where
  | num : Dec → Cell
  | str : String → Cell
  | date : Int → Cell
  | na : Cell
deriving DecidableEq, Repr

/-! ### Calendar arithmetic

`datetime` subtraction and `strftime` are modelled on day ordinals with
the standard proleptic-Gregorian civil-calendar conversion (day 0 is
1970-01-01). -/

/-- Convert a day ordinal (days since 1970-01-01) to (year, month, day). -/
def civilFromDays (z0 : Int) : Int × Nat × Nat :=
  let z : Int := z0 + 719468
  let era : Int := (if 0 ≤ z then z else z - 146096) / 146097
  let doe : Nat := (z - era * 146097).toNat
  let yoe : Nat := (doe - doe / 1460 + doe / 36524 - doe / 146096) / 365
  let y : Int := (yoe : Int) + era * 400
  let doy : Nat := doe - (365 * yoe + yoe / 4 - yoe / 100)
  let mp : Nat := (5 * doy + 2) / 153
  let d : Nat := doy - (153 * mp + 2) / 5 + 1
  let m : Nat := if mp < 10 then mp + 3 else mp - 9
  (if m ≤ 2 then y + 1 else y, m, d)

/-- Convert (year, month, day) to a day ordinal (days since 1970-01-01). -/
def daysFromCivil (y0 : Int) (m : Nat) (d : Nat) : Int :=
  let y : Int := if m ≤ 2 then y0 - 1 else y0
  let era : Int := (if 0 ≤ y then y else y - 399) / 400
  let yoe : Nat := (y - era * 400).toNat
  let mp : Nat := if 2 < m then m - 3 else m + 9
  let doy : Nat := (153 * mp + 2) / 5 + d - 1
  let doe : Nat := yoe * 365 + yoe / 4 - yoe / 100 + doy
  era * 146097 + (doe : Int) - 719468

def isLeapYear (y : Int) : Bool :=
  (y % 4 == 0) && (!(y % 100 == 0) || (y % 400 == 0))

def daysInMonth (y : Int) (m : Nat) : Nat :=
  if m = 2 then (if isLeapYear y then 29 else 28)
  else if m = 4 ∨ m = 6 ∨ m = 9 ∨ m = 11 then 30
  else 31

def pad2 (n : Nat) : String := if n < 10 then "0" ++ toString n else toString n

def pad4 (n : Int) : String :=
  if n < 10 then "000" ++ toString n
  else if n < 100 then "00" ++ toString n
  else if n < 1000 then "0" ++ toString n
  else toString n

/-- strftime("%Y-%m-%d") on a day ordinal. -/
def fmtDash (z : Int) : String :=
  let c := civilFromDays z
  pad4 c.1 ++ "-" ++ pad2 c.2.1 ++ "-" ++ pad2 c.2.2

/-- strftime("%Y%m%d") on a day ordinal. -/
def fmt8 (z : Int) : String :=
  let c := civilFromDays z
  pad4 c.1 ++ pad2 c.2.1 ++ pad2 c.2.2

/-! ### Python string / number parsing helpers -/

/-- The whitespace characters stripped by Python str.strip(). -/
def isSpaceChar (c : Char) : Bool :=
  (c == ' ') || (c == '\t') || (c == '\n') || (c == '\r') ||
  (c == '\x0b') || (c == '\x0c')

/-- str.strip() on a character list. -/
def stripChars (cs : List Char) : List Char :=
  ((cs.dropWhile isSpaceChar).reverse.dropWhile isSpaceChar).reverse

/-- Value of a digit string, most significant digit first. -/
def digitsVal (ds : List Char) : Nat :=
  ds.foldl (fun a c => a * 10 + (c.toNat - 48)) 0

/-- Split a leading run of decimal digits from the rest. -/
def takeDigits : List Char → List Char × List Char
  | [] => ([], [])
  | c :: cs =>
    if c.isDigit then
      let p := takeDigits cs
      (c :: p.1, p.2)
    else ([], c :: cs)

/-- Parse an optionally signed digit run, returning value and remainder. -/
def parseSignedDigits (cs : List Char) : Option (Int × List Char) :=
  match cs with
  | '+' :: rest =>
    let p := takeDigits rest
    if p.1.isEmpty then none else some ((digitsVal p.1 : Int), p.2)
  | '-' :: rest =>
    let p := takeDigits rest
    if p.1.isEmpty then none else some (-(digitsVal p.1 : Int), p.2)
  | _ =>
    let p := takeDigits cs
    if p.1.isEmpty then none else some ((digitsVal p.1 : Int), p.2)

/-- Parse the unsigned mantissa of a float literal: digits, optionally
with a decimal point ("12", "12.", "12.5", ".5"). -/
def parseMantissa (cs : List Char) : Option (Dec × List Char) :=
  let ip := takeDigits cs
  match ip.2 with
  | '.' :: rest =>
    let fp := takeDigits rest
    if ip.1.isEmpty && fp.1.isEmpty then none
    else
      some (⟨(digitsVal ip.1 * 10 ^ fp.1.length + digitsVal fp.1 : Nat), fp.1.length⟩, fp.2)
  | other =>
    if ip.1.isEmpty then none else some (⟨(digitsVal ip.1 : Nat), 0⟩, other)

/-- Scale a mantissa by `10 ^ k` (the exponent part of a float literal). -/
def Dec.scale (x : Dec) (k : Int) : Dec :=
  if 0 ≤ k then ⟨x.m * (10 : Int) ^ k.toNat, x.e⟩ else ⟨x.m, x.e + (-k).toNat⟩

def Dec.negIf (x : Dec) (b : Bool) : Dec := if b then ⟨-x.m, x.e⟩ else x

def parseFloatExpPart (neg : Bool) (m : Dec) (cs : List Char) : Option Dec := do
  let p ← parseSignedDigits cs
  match p.2 with
  | [] => pure ((m.scale p.1).negIf neg)
  | _ => none

/-- Python float(s) on a character list: optional sign, decimal mantissa,
optional exponent.  The special literals "inf"/"nan" are not representable
in the exact-decimal model and never arise in this pipeline. -/
def parseFloatChars (cs0 : List Char) : Option Dec :=
  let sp : Bool × List Char :=
    match cs0 with
    | '+' :: rest => (false, rest)
    | '-' :: rest => (true, rest)
    | _ => (false, cs0)
  match parseMantissa sp.2 with
  | none => none
  | some (m, rest) =>
    match rest with
    | [] => some (m.negIf sp.1)
    | 'e' :: rest2 => parseFloatExpPart sp.1 m rest2
    | 'E' :: rest2 => parseFloatExpPart sp.1 m rest2
    | _ => none

/-- Python float(s): surrounding whitespace is accepted. -/
def pyFloat (s : String) : Option Dec := parseFloatChars (stripChars s.data)

/-- Python int(s) (base 10): optional sign, digits, surrounding whitespace. -/
def pyIntParse (s : String) : Option Int :=
  match stripChars s.data with
  | '-' :: ds => if !ds.isEmpty && ds.all Char.isDigit then some (-(digitsVal ds : Int)) else none
  | '+' :: ds => if !ds.isEmpty && ds.all Char.isDigit then some ((digitsVal ds : Int)) else none
  | ds => if !ds.isEmpty && ds.all Char.isDigit then some ((digitsVal ds : Int)) else none

/-- Embeds `_to_num`: NaN stays missing; a numeric value is cast to float
(identity in the exact model); any other value is stringified, commas
removed, stripped, and parsed as a float, with parse failure yielding the
missing marker np.nan (modelled as none), never zero and never an
exception.  str(datetime) is of the form "YYYY-MM-DD HH:MM:SS" and never
parses as a float. -/
def toNum : Cell → Option Dec
  | Cell.na => none
  | Cell.num q => some q
  | Cell.date _ => none
  | Cell.str s => pyFloat (String.mk ((s.data.filter (fun c => !(c == ','))) |> stripChars))

/-- `_to_num` as a cell-to-cell map (np.nan becomes the na cell). -/
def toNumCell (c : Cell) : Cell :=
  match toNum c with
  | some q => Cell.num q
  | none => Cell.na

/-- Parse an ISO "YYYY-MM-DD" date string to a day ordinal, validating
month and day ranges (the only string-date format this model accepts;
pykrx returns datetime-typed values, so string parsing does not arise on
well-formed provider data). -/
def parseDateChars (cs : List Char) : Option Int :=
  match cs with
  | [y1, y2, y3, y4, '-', m1, m2, '-', d1, d2] =>
    if [y1, y2, y3, y4, m1, m2, d1, d2].all Char.isDigit then
      let y : Int := (digitsVal [y1, y2, y3, y4] : Int)
      let m : Nat := digitsVal [m1, m2]
      let d : Nat := digitsVal [d1, d2]
      if 1 ≤ m ∧ m ≤ 12 ∧ 1 ≤ d ∧ d ≤ daysInMonth y m then
        some (daysFromCivil y m d)
      else none
    else none
  | _ => none

/-- pandas interprets a bare number as nanoseconds since the Unix epoch;
the day ordinal of the resulting timestamp (floor division). -/
def ratNsToDays (x : Dec) : Int := Int.fdiv x.m ((10 : Int) ^ x.e * 86400000000000)

/-- Embeds `pd.to_datetime(col).dt.strftime("%Y-%m-%d")` applied to one
cell: a datetime-typed value is reformatted; a missing value (NaT/NaN)
stays missing, as does an empty string; a parseable date string is
reformatted; an unparseable non-empty string raises (errors="raise" is
the pandas default). -/
def toDatetimeFmt : Cell → Except String Cell
  | Cell.date z => Except.ok (Cell.str (fmtDash z))
  | Cell.na => Except.ok Cell.na
  | Cell.num q => Except.ok (Cell.str (fmtDash (ratNsToDays q)))
  | Cell.str s =>
    match stripChars s.data with
    | [] => Except.ok Cell.na
    | cs =>
      match parseDateChars cs with
      | some z => Except.ok (Cell.str (fmtDash z))
      | none => Except.error ("could not convert to datetime: " ++ s)

/-! ### DataFrames and the pandas operations the script uses -/

abbrev Row := List Cell

/-- A DataFrame after `reset_index`: named columns and rows of cells. -/
structure DF where
  cols : List String
  rows : List Row
deriving DecidableEq, Repr

/-- A DataFrame as returned by the provider: a possibly named index
(pykrx returns the date as a named index) plus data columns.  `index` and
`rows` have equal length. -/
structure PDF where
  indexName : Option String
  index : List Cell
  cols : List String
  rows : List Row
deriving DecidableEq, Repr

instance {ε α : Type} [DecidableEq ε] [DecidableEq α] : DecidableEq (Except ε α) := fun x y =>
  match x, y with
  | Except.ok a, Except.ok b =>
    match decEq a b with
    | isTrue h => isTrue (h ▸ rfl)
    | isFalse h => isFalse (fun hc => h (Except.ok.inj hc))
  | Except.error e, Except.error e2 =>
    match decEq e e2 with
    | isTrue h => isTrue (h ▸ rfl)
    | isFalse h => isFalse (fun hc => h (Except.error.inj hc))
  | Except.ok _, Except.error _ => isFalse (fun hc => Except.noConfusion hc)
  | Except.error _, Except.ok _ => isFalse (fun hc => Except.noConfusion hc)

/-- `df.reset_index()` guarded by `if df.index.name is not None`: an
unnamed index is left in place (dropped from the cell grid). -/
def resetIndexIfNamed (p : PDF) : DF :=
  match p.indexName with
  | some n => { cols := n :: p.cols, rows := p.index.zipWith (fun c r => c :: r) p.rows }
  | none => { cols := p.cols, rows := p.rows }

/-- `df.empty`: true when either axis has length 0. -/
def pdfEmpty (p : PDF) : Bool := p.cols.isEmpty || p.rows.isEmpty

/-- Shape invariant of a DataFrame: every row has one cell per column. -/
def DF.WF (d : DF) : Prop := ∀ r ∈ d.rows, r.length = d.cols.length

/-- Shape invariant of a provider result. -/
def PDF.WF (p : PDF) : Prop :=
  (∀ r ∈ p.rows, r.length = p.cols.length) ∧ p.index.length = p.rows.length

instance (d : DF) : Decidable d.WF := by unfold DF.WF; infer_instance

instance (p : PDF) : Decidable p.WF := by unfold PDF.WF; infer_instance

/-- Index of a named column (first occurrence). -/
def DF.colIdx (d : DF) (c : String) : Option Nat := d.cols.findIdx? (fun x => x == c)

/-- The values of a named column, in row order. -/
def DF.colVals (d : DF) (c : String) : List Cell :=
  match d.colIdx c with
  | some i => d.rows.map (fun r => r.getD i Cell.na)
  | none => []

/-- The value a row holds in a named column of a frame (missing marker
when the column is absent): positional access through the column index. -/
def DF.rowCell (d : DF) (r : Row) (c : String) : Cell :=
  match d.colIdx c with
  | some i => r.getD i Cell.na
  | none => Cell.na

/-- `df.rename(columns=\x7ba: b\x7d)`. -/
def DF.renameCol (d : DF) (a b : String) : DF :=
  { d with cols := d.cols.map (fun c => if c == a then b else c) }

/-- `df.rename(columns=\x7bc: str(c).strip() for c in df.columns\x7d)`. -/
def DF.stripColNames (d : DF) : DF :=
  { d with cols := d.cols.map (fun c => String.mk (stripChars c.data)) }

/-- Apply a fallible function elementwise, propagating the first error
(as a pandas elementwise conversion does). -/
def mapE (f : α → Except String β) : List α → Except String (List β)
  | [] => Except.ok []
  | a :: as =>
    match f a, mapE f as with
    | Except.ok b, Except.ok bs => Except.ok (b :: bs)
    | Except.error e, _ => Except.error e
    | _, Except.error e => Except.error e

/-- `df[c] = df[c].apply(f)` for a fallible per-cell `f`; KeyError when
the column is absent (as for `pd.to_datetime(df[c])`). -/
def DF.setColE (d : DF) (c : String) (f : Cell → Except String Cell) : Except String DF :=
  match d.colIdx c with
  | none => Except.error ("KeyError: " ++ c)
  | some i => do
    let rows2 ← mapE (fun r => do
      let v ← f (r.getD i Cell.na)
      pure (r.set i v)) d.rows
    pure { d with rows := rows2 }

/-- `df[c] = df[c].apply(f)` for a total per-cell `f`, skipping an absent
column (call sites guard with `if c in df.columns`). -/
def DF.mapCol (d : DF) (c : String) (f : Cell → Cell) : DF :=
  match d.colIdx c with
  | none => d
  | some i => { d with rows := d.rows.map (fun r => r.set i (f (r.getD i Cell.na))) }

/-- Embeds `_normalize_numeric`: apply `_to_num` to each listed column
that is present. -/
def normalizeNumeric (d : DF) (cs : List String) : DF :=
  cs.foldl (fun acc c => acc.mapCol c toNumCell) d

/-- `df[[c1, ..., ck]]`: column projection; KeyError when a name is
absent. -/
def DF.select (d : DF) (names : List String) : Except String DF := do
  let idxs ← mapE (fun c =>
    match d.colIdx c with
    | some i => Except.ok i
    | none => Except.error ("KeyError: " ++ c)) names
  Except.ok { cols := names, rows := d.rows.map (fun r => idxs.map (fun i => r.getD i Cell.na)) }

/-- `df.columns = names` (the call sites assign exactly as many names as
there are columns). -/
def DF.setCols (d : DF) (names : List String) : DF := { d with cols := names }

/-- Keep the first row for each key value already seen (pandas
`duplicated` treats missing keys as equal, which cell equality also
does). -/
def dedupKeep (i : Nat) (seen : List Cell) : List Row → List Row
  | [] => []
  | r :: rs =>
    if r.getD i Cell.na ∈ seen then dedupKeep i seen rs
    else r :: dedupKeep i (r.getD i Cell.na :: seen) rs

/-- `df.drop_duplicates(c)`: keep the first row of each key value. -/
def DF.dropDuplicates (d : DF) (c : String) : Except String DF :=
  match d.colIdx c with
  | some i => Except.ok { d with rows := dedupKeep i [] d.rows }
  | none => Except.error ("KeyError: " ++ c)

/-- Rank used to order cells of distinct kinds; missing keys rank last,
matching the pandas default na_position="last" for both sort directions.
Keys of mixed non-missing kinds would raise in pandas and do not arise in
this pipeline (the sort key column holds formatted date strings). -/
def cellRank : Cell → Nat
  | Cell.num _ => 0
  | Cell.str _ => 1
  | Cell.date _ => 2
  | Cell.na => 3

/-- Lexicographic comparison of character lists by Unicode code point,
as Python compares strings. -/
def strLeChars : List Char → List Char → Bool
  | [], _ => true
  | _ :: _, [] => false
  | a :: as, b :: bs =>
    if a.toNat = b.toNat then strLeChars as bs else decide (a.toNat < b.toNat)

def strLe (x y : String) : Bool := strLeChars x.data y.data

/-- Strict string comparison. -/
def strLt (x y : String) : Bool := strLe x y && !(x == y)

/-- Value comparison of same-kind cells. -/
def cellValLe (a b : Cell) : Bool :=
  match a, b with
  | Cell.num x, Cell.num y => Dec.le x y
  | Cell.str x, Cell.str y => strLe x y
  | Cell.date x, Cell.date y => decide (x ≤ y)
  | _, _ => true

/-- Ascending sort order on key cells, missing keys last. -/
def ascLe (a b : Cell) : Bool :=
  if cellRank a = cellRank b then cellValLe a b else decide (cellRank a < cellRank b)

/-- Descending sort order on key cells, missing keys still last. -/
def descLe (a b : Cell) : Bool :=
  if cellRank a = cellRank b then cellValLe b a else decide (cellRank a < cellRank b)

/-- Insert into a sorted list (first position where the comparator
accepts). -/
def orderedInsertBy {α : Type} (le : α → α → Bool) (a : α) : List α → List α
  | [] => [a]
  | b :: l => if le a b then a :: b :: l else b :: orderedInsertBy le a l

/-- A comparison sort.  pandas sort_values defaults to an unstable
quicksort, so any permutation ordered by the comparator is a faithful
model; insertion sort keeps the embedding kernel-computable. -/
def sortBy {α : Type} (le : α → α → Bool) : List α → List α
  | [] => []
  | a :: l => orderedInsertBy le a (sortBy le l)

/-- `df.sort_values(c, ascending=asc)` (missing keys placed last by the
comparator, matching na_position="last"). -/
def DF.sortValues (d : DF) (c : String) (asc : Bool) : Except String DF :=
  match d.colIdx c with
  | some i =>
    Except.ok { d with rows := sortBy (fun r1 r2 =>
      (if asc then ascLe else descLe) (r1.getD i Cell.na) (r2.getD i Cell.na)) d.rows }
  | none => Except.error ("KeyError: " ++ c)

/-- Whether a cell holds a present (non-missing) value. -/
def notNa : Cell → Bool
  | Cell.na => false
  | _ => true

/-- `df.dropna(subset=[c])`: drop rows whose key cell is missing. -/
def DF.dropnaSubset (d : DF) (c : String) : Except String DF :=
  match d.colIdx c with
  | some i =>
    Except.ok { d with rows := d.rows.filter (fun r => notNa (r.getD i Cell.na)) }
  | none => Except.error ("KeyError: " ++ c)

/-- Join-key matching: missing keys never match (pandas merge semantics
for NaN). -/
def joinMatch : Cell → Cell → Bool
  | Cell.str a, Cell.str b => a == b
  | Cell.num a, Cell.num b => a == b
  | Cell.date a, Cell.date b => a == b
  | _, _ => false

/-- `l.merge(r, on=key, how="left")`: every left row is retained; a left
row with no key match gets missing values in the right columns; one
output row per matching right row.  The non-key column names of the two
tables are disjoint at every call site, so pandas suffixing is not
modelled. -/
def mergeLeft (l r : DF) (key : String) : Except String DF :=
  match l.colIdx key, r.colIdx key with
  | some li, some ri =>
    let rcols := r.cols.eraseIdx ri
    Except.ok
      { cols := l.cols ++ rcols
        rows := l.rows.flatMap (fun lr =>
          let k := lr.getD li Cell.na
          match r.rows.filter (fun rr => joinMatch k (rr.getD ri Cell.na)) with
          | [] => [lr ++ rcols.map (fun _ => Cell.na)]
          | ms => ms.map (fun rr => lr ++ rr.eraseIdx ri)) }
  | _, _ => Except.error ("KeyError: merge on " ++ key)

/-- `cell.fillna(0)` on one cell: a missing value becomes the float 0. -/
def fillCell : Cell → Cell
  | Cell.na => Cell.num ⟨0, 0⟩
  | v => v

/-- `out[c] = out[c].fillna(0)` guarded by `if c in out.columns`. -/
def fillZeroCols (d : DF) (cs : List String) : DF :=
  cs.foldl (fun acc c => acc.mapCol c fillCell) d

/-! ### CSV serialization -/

/-- Left-pad a digit string with zeros to a given width. -/
def padZeros (k : Nat) (s : String) : String :=
  String.mk (List.replicate (k - s.length) '0') ++ s

/-- Decimal text of a scaled decimal (Python float repr writes a trailing
".0" on integral floats). -/
def renderDec (x : Dec) : String :=
  if x.e = 0 then toString x.m ++ ".0"
  else
    let a := x.m.natAbs
    let sign := if x.m < 0 then "-" else ""
    sign ++ toString (a / 10 ^ x.e) ++ "." ++ padZeros x.e (toString (a % 10 ^ x.e))

def renderCell : Cell → String
  | Cell.num q => renderDec q
  | Cell.str s => s
  | Cell.date z => fmtDash z
  | Cell.na => ""

/-- Minimal CSV quoting: a field containing a delimiter, quote or line
break is quoted, with embedded quotes doubled. -/
def csvField (s : String) : String :=
  if s.data.any (fun c => (c == ',') || (c == '"') || (c == '\n') || (c == '\r')) then
    "\"" ++ String.mk (s.data.flatMap (fun c => if c == '"' then ['"', '"'] else [c])) ++ "\""
  else s

def csvLine (fields : List String) : String :=
  String.intercalate "," (fields.map csvField)

/-- Concatenate lines, terminating every line (the last included) with a
line feed, as `to_csv(lineterminator="\n")` does. -/
def concatLines : List String → String
  | [] => ""
  | l :: ls => l ++ "\n" ++ concatLines ls

/-- `df.to_csv(index=False, encoding="utf-8", lineterminator="\n")`: a
header line then one line per row, each terminated by a line feed; the
"utf-8" codec (unlike "utf-8-sig") writes no byte-order mark, so the text
is written verbatim. -/
def toCsv (d : DF) : String :=
  concatLines (csvLine d.cols :: d.rows.map (fun r => csvLine (r.map renderCell)))

/-! ### The pipeline (`main`) -/

/-- The numeric price columns passed to `_normalize_numeric`. -/
def priceNumCols : List String :=
  ["시가", "고가", "저가", "종가", "거래량", "거래대금", "등락률"]

/-- The candidate output columns of the price table (`base_cols` filter
list); note 거래대금 is not among them. -/
def baseColsAll : List String :=
  ["일자", "시가", "고가", "저가", "종가", "거래량", "등락률"]

/-- The four short-selling columns filled with zero after the merge. -/
def shortFillCols : List String :=
  ["공매도", "공매도비중", "공매도잔고", "공매도잔고비중"]

/-- The exact header schema of the output file. -/
def outSchema : List String :=
  ["일자", "시가", "고가", "저가", "종가", "거래량", "등락률",
   "공매도", "공매도비중", "공매도잔고", "공매도잔고비중"]

/-- The renamed price table before date formatting: reset a named index
and rename 날짜 to 일자. -/
def ohlcvRenamed (raw : PDF) : DF := (resetIndexIfNamed raw).renameCol "날짜" "일자"

/-- The `base_cols` filter: the canonical output columns that are present. -/
def ohlcvBase (d3 : DF) : List String := baseColsAll.filter (fun c => d3.cols.contains c)

/-- The tail of `normOhlcv` after the date column has been formatted:
coerce the numeric columns, keep the base columns that are present,
deduplicate by date and sort ascending. -/
def ohlcvFinish (d2 : DF) : Except String DF :=
  match (normalizeNumeric d2 priceNumCols).select (ohlcvBase (normalizeNumeric d2 priceNumCols)) with
  | Except.error e => Except.error e
  | Except.ok d4 =>
    match d4.dropDuplicates "일자" with
    | Except.error e => Except.error e
    | Except.ok d5 => d5.sortValues "일자" true

/-- Step 1 of `main`: normalize the OHLCV price table — reset a named
index, rename 날짜 to 일자, format the date column, coerce the numeric
columns, keep the base columns that are present, deduplicate by date and
sort ascending. -/
def normOhlcv (raw : PDF) : Except String DF :=
  match (ohlcvRenamed raw).setColE "일자" toDatetimeFmt with
  | Except.error e => Except.error e
  | Except.ok d2 => ohlcvFinish d2

/-- The empty typed table substituted for an absent or empty short-sale
result. -/
def emptyShort (names : List String) : DF := { cols := names, rows := [] }

/-- The short-sale table after index reset and column-name stripping. -/
def shortBase (p : PDF) : DF := (resetIndexIfNamed p).stripColNames

/-- The non-empty branch of short-sale normalization: pick 날짜 (or the
first column) as the date column, project the date, value (`srcVal`) and
비중 columns (KeyError when one is missing), rename them to `names`,
format the date column, coerce the two numeric columns and drop rows
with a missing date. -/
def normShortMain (p : PDF) (srcVal : String) (names : List String)
    (numCols : List String) : Except String DF :=
  match (shortBase p).cols with
  | [] => Except.error "IndexError: columns"
  | c0 :: _ =>
    match (shortBase p).select
        [if (shortBase p).cols.contains "날짜" then "날짜" else c0, srcVal, "비중"] with
    | Except.error e => Except.error e
    | Except.ok d1 =>
      match (d1.setCols names).setColE "일자" toDatetimeFmt with
      | Except.error e => Except.error e
      | Except.ok d3 => (normalizeNumeric d3 numCols).dropnaSubset "일자"

/-- Steps 2 and 3 of `main`: normalize a short-sale table.  An absent or
empty result becomes the empty typed table with the canonical headers. -/
def normShort (raw : Option PDF) (srcVal : String) (names : List String)
    (numCols : List String) : Except String DF :=
  match raw with
  | none => Except.ok (emptyShort names)
  | some p =>
    if pdfEmpty p then Except.ok (emptyShort names)
    else normShortMain p srcVal names numCols

def svNames : List String := ["일자", "공매도", "공매도비중"]
def sbNames : List String := ["일자", "공매도잔고", "공매도잔고비중"]

/-- The three provider results a run receives: each fetch either raises
or returns a (possibly absent) table. -/
structure Fetched where
  ohlcv : Except String PDF
  sv : Except String (Option PDF)
  sb : Except String (Option PDF)

/-- Steps 1-6 of `main` up to (but excluding) the file write: normalize
the three tables, left-join price with short-volume then short-balance on
일자, fill the four short-selling columns with zero, and sort descending
by 일자. -/
def mergePhase (o v b : DF) : Except String DF :=
  match mergeLeft o v "일자" with
  | Except.error e => Except.error e
  | Except.ok m1 =>
    match mergeLeft m1 b "일자" with
    | Except.error e => Except.error e
    | Except.ok m2 => (fillZeroCols m2 shortFillCols).sortValues "일자" false

def pipeline (f : Fetched) : Except String DF :=
  match f.ohlcv with
  | Except.error e => Except.error e
  | Except.ok rawO =>
    match normOhlcv rawO with
    | Except.error e => Except.error e
    | Except.ok o =>
      match f.sv with
      | Except.error e => Except.error e
      | Except.ok rawV =>
        match normShort rawV "공매도" svNames ["공매도", "공매도비중"] with
        | Except.error e => Except.error e
        | Except.ok v =>
          match f.sb with
          | Except.error e => Except.error e
          | Except.ok rawB =>
            match normShort rawB "공매도잔고" sbNames ["공매도잔고", "공매도잔고비중"] with
            | Except.error e => Except.error e
            | Except.ok b => mergePhase o v b

/-- The observable file-system state: the content of the output file, if
it exists, and whether the final write would succeed (an OSError from
`to_csv` is an environmental failure, modelled as an input). -/
structure World where
  outFile : Option String
  writeOk : Bool
deriving DecidableEq, Repr

/-- `main`: run the pipeline, then — as the last step — write the CSV.
Every failure before the write leaves the world untouched by
construction: the only state change in the function is the final write. -/
def mainRun (f : Fetched) (w : World) : Except String World :=
  match pipeline f with
  | Except.error e => Except.error e
  | Except.ok out =>
    if w.writeOk then Except.ok { w with outFile := some (toCsv out) }
    else Except.error "OSError: write failed"

/-- Exit code, standard-error line and final world of one process run. -/
structure Outcome where
  exitCode : Nat
  stderrLine : Option String
  world : World
deriving DecidableEq, Repr

/-- The `if __name__ == "__main__"` handler: exit 0 on success; on any
exception print "[ERROR] <message>" to standard error and exit 1. -/
def runTop (f : Fetched) (w : World) : Outcome :=
  match mainRun f w with
  | Except.ok w2 => { exitCode := 0, stderrLine := none, world := w2 }
  | Except.error e => { exitCode := 1, stderrLine := some ("[ERROR] " ++ e), world := w }

/-- `int(os.getenv("LOOKBACK_DAYS", "400"))`. -/
def lookbackDaysOf (env : Option String) : Option Int :=
  pyIntParse (env.getD "400")

/-- `_yyyymmdd_range`: both endpoints of [today - days, today] rendered
with strftime("%Y%m%d"). -/
def yyyymmddRange (today : Int) (days : Int) : String × String :=
  (fmt8 (today - days), fmt8 today)

/-! ### Infrastructure lemmas: elementwise mapping -/

theorem mapE_ok_forall₂ {α β : Type} {f : α → Except String β} :
    ∀ {l : List α} {l2 : List β}, mapE f l = Except.ok l2 →
      List.Forall₂ (fun a b => f a = Except.ok b) l l2 := by
  intro l
  induction l with
  | nil =>
    intro l2 h
    simp only [mapE, Except.ok.injEq] at h
    subst h
    exact List.Forall₂.nil
  | cons a as ih =>
    intro l2 h
    simp only [mapE] at h
    cases hfa : f a with
    | error e => rw [hfa] at h; simp at h
    | ok b =>
      rw [hfa] at h
      cases hrest : mapE f as with
      | error e => rw [hrest] at h; simp at h
      | ok bs =>
        rw [hrest] at h
        simp only [Except.ok.injEq] at h
        subst h
        exact List.Forall₂.cons hfa (ih hrest)

theorem forall₂_length {α β : Type} {R : α → β → Prop} :
    ∀ {l : List α} {l2 : List β}, List.Forall₂ R l l2 → l2.length = l.length := by
  intro l
  induction l with
  | nil => intro l2 h; cases h; rfl
  | cons a as ih =>
    intro l2 h
    cases h with
    | cons hr hrest => simpa using ih hrest

theorem forall₂_mem_right {α β : Type} {R : α → β → Prop} :
    ∀ {l : List α} {l2 : List β}, List.Forall₂ R l l2 → ∀ b ∈ l2, ∃ a ∈ l, R a b := by
  intro l
  induction l with
  | nil => intro l2 h; cases h; simp
  | cons a as ih =>
    intro l2 h
    cases h with
    | cons hr hrest =>
      intro b hb
      rcases List.mem_cons.mp hb with hb | hb
      · exact ⟨a, List.mem_cons_self a as, hb ▸ hr⟩
      · rcases ih hrest b hb with ⟨x, hx, hxr⟩
        exact ⟨x, List.mem_cons_of_mem a hx, hxr⟩

theorem forall₂_mem_left {α β : Type} {R : α → β → Prop} :
    ∀ {l : List α} {l2 : List β}, List.Forall₂ R l l2 → ∀ a ∈ l, ∃ b ∈ l2, R a b := by
  intro l
  induction l with
  | nil => simp
  | cons a as ih =>
    intro l2 h
    cases h with
    | cons hr hrest =>
      intro x hx
      rcases List.mem_cons.mp hx with hx | hx
      · exact ⟨_, List.mem_cons_self _ _, hx ▸ hr⟩
      · rcases ih hrest x hx with ⟨b, hb, hbr⟩
        exact ⟨b, List.mem_cons_of_mem _ hb, hbr⟩

theorem mapE_ok_length {α β : Type} {f : α → Except String β} {l : List α} {l2 : List β}
    (h : mapE f l = Except.ok l2) : l2.length = l.length :=
  forall₂_length (mapE_ok_forall₂ h)

/-! ### Infrastructure lemmas: column indices -/

theorem colIdx_head {d : DF} {c : String} (h : d.cols.head? = some c) :
    d.colIdx c = some 0 := by
  rcases d with ⟨cols, rows⟩
  cases cols with
  | nil => simp at h
  | cons c0 rest =>
    simp only [List.head?_cons, Option.some.injEq] at h
    subst h
    simp [DF.colIdx, List.findIdx?]

theorem colIdx_lt {d : DF} {c : String} {i : Nat} (h : d.colIdx c = some i) :
    i < d.cols.length := by
  rcases List.findIdx?_eq_some_iff_getElem.mp h with ⟨hlt, _, _⟩
  exact hlt

theorem colIdx_getElem {d : DF} {c : String} {i : Nat} (h : d.colIdx c = some i) :
    ∃ hlt : i < d.cols.length, d.cols[i] = c := by
  rcases List.findIdx?_eq_some_iff_getElem.mp h with ⟨hlt, hp, _⟩
  exact ⟨hlt, by simpa using hp⟩

/-- Distinct column names have distinct first-occurrence indices. -/
theorem colIdx_ne_of_name_ne {d : DF} {c1 c2 : String} {i j : Nat}
    (h1 : d.colIdx c1 = some i) (h2 : d.colIdx c2 = some j) (hne : c1 ≠ c2) : i ≠ j := by
  intro hij
  rcases colIdx_getElem h1 with ⟨hl1, he1⟩
  rcases colIdx_getElem h2 with ⟨hl2, he2⟩
  subst hij
  exact hne (he1 ▸ he2 ▸ rfl)

theorem colIdx_none_iff {d : DF} {c : String} :
    d.colIdx c = none ↔ c ∉ d.cols := by
  constructor
  · intro h hc
    have := List.findIdx?_eq_none_iff.mp h c hc
    simp at this
  · intro h
    apply List.findIdx?_eq_none_iff.mpr
    intro x hx
    simp only [beq_eq_false_iff_ne, ne_eq]
    intro hxc
    exact h (hxc ▸ hx)

theorem colIdx_isSome_of_mem {d : DF} {c : String} (h : c ∈ d.cols) :
    ∃ i, d.colIdx c = some i := by
  cases hidx : d.colIdx c with
  | none => exact absurd h (colIdx_none_iff.mp hidx)
  | some i => exact ⟨i, rfl⟩

/-- colIdx only depends on the column names. -/
theorem colIdx_eq_of_cols_eq {d d2 : DF} (h : d2.cols = d.cols) (c : String) :
    d2.colIdx c = d.colIdx c := by
  simp [DF.colIdx, h]

theorem colVals_eq_map {d : DF} {c : String} {i : Nat} (h : d.colIdx c = some i) :
    d.colVals c = d.rows.map (fun r => r.getD i Cell.na) := by
  simp [DF.colVals, h]

/-! ### Infrastructure lemmas: per-column transformations -/

theorem mapCol_cols (d : DF) (c : String) (f : Cell → Cell) :
    (d.mapCol c f).cols = d.cols := by
  cases hidx : d.colIdx c <;> simp [DF.mapCol, hidx]

theorem mapCol_rows_length (d : DF) (c : String) (f : Cell → Cell) :
    (d.mapCol c f).rows.length = d.rows.length := by
  cases hidx : d.colIdx c <;> simp [DF.mapCol, hidx]

theorem mapCol_WF {d : DF} (c : String) (f : Cell → Cell) (h : d.WF) :
    (d.mapCol c f).WF := by
  cases hidx : d.colIdx c with
  | none => simpa [DF.mapCol, hidx] using h
  | some i =>
    intro r hr
    simp only [DF.mapCol, hidx, List.mem_map] at hr
    rcases hr with ⟨r0, hr0, rfl⟩
    simpa [DF.mapCol, hidx] using h r0 hr0

theorem getD_set_self {r : Row} {i : Nat} (h : i < r.length) (v : Cell) :
    (r.set i v).getD i Cell.na = v := by
  simp [List.getD_eq_getElem?_getD, List.getElem?_set_self h]

theorem getD_set_ne {r : Row} {i j : Nat} (h : i ≠ j) (v : Cell) :
    (r.set i v).getD j Cell.na = r.getD j Cell.na := by
  simp [List.getD_eq_getElem?_getD, List.getElem?_set_ne h]

theorem mapCol_colVals_self {d : DF} {c : String} (f : Cell → Cell) (hw : d.WF) :
    (d.mapCol c f).colVals c = (d.colVals c).map f := by
  cases hidx : d.colIdx c with
  | none => simp [DF.mapCol, hidx, DF.colVals, hidx]
  | some i =>
    have hlt := colIdx_lt hidx
    have hcols : (d.mapCol c f).cols = d.cols := mapCol_cols d c f
    have hidx2 : (d.mapCol c f).colIdx c = some i := by
      rw [colIdx_eq_of_cols_eq hcols]; exact hidx
    rw [colVals_eq_map hidx2, colVals_eq_map hidx]
    simp only [DF.mapCol, hidx, List.map_map]
    apply List.map_congr_left
    intro r hr
    have : i < r.length := by rw [hw r hr]; exact hlt
    simp [List.getElem?_set_self this]

theorem mapCol_colVals_ne {d : DF} {c c2 : String} (f : Cell → Cell) (hne : c ≠ c2) :
    (d.mapCol c f).colVals c2 = d.colVals c2 := by
  cases hidx : d.colIdx c with
  | none => simp [DF.mapCol, hidx]
  | some i =>
    have hcols : (d.mapCol c f).cols = d.cols := mapCol_cols d c f
    cases hidx2 : d.colIdx c2 with
    | none =>
      have : (d.mapCol c f).colIdx c2 = none := by rw [colIdx_eq_of_cols_eq hcols]; exact hidx2
      simp [DF.colVals, this, hidx2]
    | some j =>
      have hij : i ≠ j := colIdx_ne_of_name_ne hidx hidx2 hne
      have hidx2m : (d.mapCol c f).colIdx c2 = some j := by
        rw [colIdx_eq_of_cols_eq hcols]; exact hidx2
      rw [colVals_eq_map hidx2m, colVals_eq_map hidx2]
      simp only [DF.mapCol, hidx, List.map_map]
      apply List.map_congr_left
      intro r hr
      simp [List.getElem?_set_ne hij]

theorem normalizeNumeric_cols (cs : List String) :
    ∀ d : DF, (normalizeNumeric d cs).cols = d.cols := by
  induction cs with
  | nil => intro d; rfl
  | cons c rest ih =>
    intro d
    show (normalizeNumeric (d.mapCol c toNumCell) rest).cols = d.cols
    rw [ih, mapCol_cols]

theorem normalizeNumeric_WF (cs : List String) :
    ∀ d : DF, d.WF → (normalizeNumeric d cs).WF := by
  induction cs with
  | nil => intro d h; exact h
  | cons c rest ih =>
    intro d h
    exact ih _ (mapCol_WF c toNumCell h)

theorem normalizeNumeric_rows_length (cs : List String) :
    ∀ d : DF, (normalizeNumeric d cs).rows.length = d.rows.length := by
  induction cs with
  | nil => intro d; rfl
  | cons c rest ih =>
    intro d
    show (normalizeNumeric (d.mapCol c toNumCell) rest).rows.length = d.rows.length
    rw [ih, mapCol_rows_length]

theorem normalizeNumeric_colVals_not_mem (cs : List String) {c : String} (hc : c ∉ cs) :
    ∀ d : DF, (normalizeNumeric d cs).colVals c = d.colVals c := by
  induction cs with
  | nil => intro d; rfl
  | cons c0 rest ih =>
    intro d
    have hne : c0 ≠ c := fun h => hc (h ▸ List.mem_cons_self c0 rest)
    have hrest : c ∉ rest := fun h => hc (List.mem_cons_of_mem c0 h)
    show (normalizeNumeric (d.mapCol c0 toNumCell) rest).colVals c = d.colVals c
    rw [ih hrest, mapCol_colVals_ne toNumCell hne]

theorem setColE_spec {d d2 : DF} {c : String} {f : Cell → Except String Cell}
    (h : d.setColE c f = Except.ok d2) :
    d2.cols = d.cols ∧
    ∃ i, d.colIdx c = some i ∧
      List.Forall₂ (fun r r2 => ∃ v, f (r.getD i Cell.na) = Except.ok v ∧ r2 = r.set i v)
        d.rows d2.rows := by
  cases hidx : d.colIdx c with
  | none => simp [DF.setColE, hidx] at h
  | some i =>
    simp only [DF.setColE, hidx] at h
    cases hm : mapE (fun r => do
        let v ← f (r.getD i Cell.na)
        pure (r.set i v)) d.rows with
    | error e => rw [hm] at h; exact Except.noConfusion h
    | ok rows2 =>
      rw [hm] at h
      have hd2 : ({ d with rows := rows2 } : DF) = d2 := Except.ok.inj h
      subst hd2
      refine ⟨rfl, i, rfl, ?_⟩
      have h2 := mapE_ok_forall₂ hm
      apply h2.imp
      intro r r2 hr
      cases hfv : f (r.getD i Cell.na) with
      | error e => rw [hfv] at hr; exact Except.noConfusion hr
      | ok v =>
        rw [hfv] at hr
        exact ⟨v, rfl, (Except.ok.inj hr).symm⟩

theorem select_spec {d d2 : DF} {names : List String}
    (h : d.select names = Except.ok d2) :
    d2.cols = names ∧
    ∃ idxs, List.Forall₂ (fun nm i => d.colIdx nm = some i) names idxs ∧
      d2.rows = d.rows.map (fun r => idxs.map (fun i => r.getD i Cell.na)) := by
  cases hm : mapE (fun c =>
      match d.colIdx c with
      | some i => Except.ok i
      | none => Except.error ("KeyError: " ++ c)) names with
  | error e =>
    rw [DF.select, hm] at h
    exact Except.noConfusion h
  | ok idxs =>
    rw [DF.select, hm] at h
    injection h with h2
    subst h2
    refine ⟨rfl, idxs, ?_, rfl⟩
    have h2 := mapE_ok_forall₂ hm
    apply h2.imp
    intro nm i hnm
    cases hidx : d.colIdx nm with
    | none => rw [hidx] at hnm; simp at hnm
    | some j => rw [hidx] at hnm; simp only [Except.ok.injEq] at hnm; rw [hnm]

theorem forall₂_getElem {α β : Type} {R : α → β → Prop} :
    ∀ {l : List α} {l2 : List β}, List.Forall₂ R l l2 →
      ∀ i (h1 : i < l.length) (h2 : i < l2.length), R (l.get ⟨i, h1⟩) (l2.get ⟨i, h2⟩) := by
  intro l
  induction l with
  | nil => intro l2 h i h1; simp at h1
  | cons a as ih =>
    intro l2 h i h1 h2
    cases h with
    | cons hr hrest =>
      cases i with
      | zero => exact hr
      | succ n => exact ih hrest n (Nat.lt_of_succ_lt_succ h1) (Nat.lt_of_succ_lt_succ (by simpa using h2))

theorem select_rows_length {d d2 : DF} {names : List String}
    (h : d.select names = Except.ok d2) : d2.rows.length = d.rows.length := by
  rcases select_spec h with ⟨-, idxs, -, hrows⟩
  simp [hrows]

theorem select_WF {d d2 : DF} {names : List String}
    (h : d.select names = Except.ok d2) : d2.WF := by
  rcases select_spec h with ⟨hcols, idxs, hfa, hrows⟩
  intro r hr
  rw [hrows] at hr
  rcases List.mem_map.mp hr with ⟨r0, -, rfl⟩
  simp [hcols, forall₂_length hfa]

theorem select_colVals {d d2 : DF} {names : List String} {c : String}
    (h : d.select names = Except.ok d2) (hc : c ∈ names) : d2.colVals c = d.colVals c := by
  rcases select_spec h with ⟨hcols, idxs, hfa, hrows⟩
  cases hfi : names.findIdx? (fun x => x == c) with
  | none =>
    exfalso
    have := List.findIdx?_eq_none_iff.mp hfi c hc
    simp at this
  | some j =>
    have hidx2 : d2.colIdx c = some j := by
      simp only [DF.colIdx, hcols]; exact hfi
    rcases List.findIdx?_eq_some_iff_getElem.mp hfi with ⟨hjlt, hpj, -⟩
    have hnamej : names.get ⟨j, hjlt⟩ = c := by simpa using hpj
    have hjlt2 : j < idxs.length := by rw [forall₂_length hfa]; exact hjlt
    have hdi : d.colIdx c = some (idxs.get ⟨j, hjlt2⟩) := by
      have := forall₂_getElem hfa j hjlt hjlt2
      rwa [hnamej] at this
    rw [colVals_eq_map hidx2, colVals_eq_map hdi, hrows]
    simp only [List.map_map]
    apply List.map_congr_left
    intro r hr
    simp [List.getD_eq_getElem?_getD, List.getElem?_map, List.getElem?_eq_getElem hjlt2]

/-! ### Infrastructure lemmas: deduplication -/

theorem dedupKeep_sublist (i : Nat) :
    ∀ (rs : List Row) (seen : List Cell), List.Sublist (dedupKeep i seen rs) rs := by
  intro rs
  induction rs with
  | nil => intro seen; simp [dedupKeep]
  | cons r rest ih =>
    intro seen
    by_cases hmem : r.getD i Cell.na ∈ seen
    · simp only [dedupKeep, if_pos hmem]
      exact (ih seen).cons r
    · simp only [dedupKeep, if_neg hmem]
      exact (ih _).cons₂ r

theorem dedupKeep_spec (i : Nat) :
    ∀ (rs : List Row) (seen : List Cell),
      (∀ r ∈ dedupKeep i seen rs, r.getD i Cell.na ∉ seen) ∧
      ((dedupKeep i seen rs).map (fun r => r.getD i Cell.na)).Nodup := by
  intro rs
  induction rs with
  | nil => intro seen; simp [dedupKeep]
  | cons r rest ih =>
    intro seen
    by_cases hmem : r.getD i Cell.na ∈ seen
    · simpa only [dedupKeep, if_pos hmem] using ih seen
    · simp only [dedupKeep, if_neg hmem]
      rcases ih (r.getD i Cell.na :: seen) with ⟨hnot, hnd⟩
      refine ⟨?_, ?_⟩
      · intro r2 hr2
        rcases List.mem_cons.mp hr2 with rfl | hr2
        · exact hmem
        · intro hs
          exact hnot r2 hr2 (List.mem_cons_of_mem _ hs)
      · simp only [List.map_cons, List.nodup_cons]
        refine ⟨?_, hnd⟩
        intro hk
        rcases List.mem_map.mp hk with ⟨r2, hr2, he⟩
        exact hnot r2 hr2 (he ▸ List.mem_cons_self _ _)

theorem dedupKeep_eq_self (i : Nat) :
    ∀ (rs : List Row) (seen : List Cell),
      (rs.map (fun r => r.getD i Cell.na)).Nodup →
      (∀ r ∈ rs, r.getD i Cell.na ∉ seen) →
      dedupKeep i seen rs = rs := by
  intro rs
  induction rs with
  | nil => intro seen _ _; rfl
  | cons r rest ih =>
    intro seen hnd hdisj
    have hmem : r.getD i Cell.na ∉ seen := hdisj r (List.mem_cons_self _ _)
    simp only [dedupKeep, if_neg hmem]
    congr 1
    simp only [List.map_cons, List.nodup_cons] at hnd
    apply ih
    · exact hnd.2
    · intro r2 hr2 hs
      rcases List.mem_cons.mp hs with he | hs2
      · exact hnd.1 (he ▸ List.mem_map_of_mem _ hr2)
      · exact hdisj r2 (List.mem_cons_of_mem _ hr2) hs2

theorem dedupKeep_key_mem (i : Nat) :
    ∀ (rs : List Row) (seen : List Cell) (k : Cell), k ∉ seen →
      (k ∈ (dedupKeep i seen rs).map (fun r => r.getD i Cell.na) ↔
        k ∈ rs.map (fun r => r.getD i Cell.na)) := by
  intro rs
  induction rs with
  | nil => intro seen k _; simp [dedupKeep]
  | cons r rest ih =>
    intro seen k hk
    by_cases hmem : r.getD i Cell.na ∈ seen
    · simp only [dedupKeep, if_pos hmem, List.map_cons, List.mem_cons]
      rw [ih seen k hk]
      constructor
      · intro h; exact Or.inr h
      · rintro (he | h)
        · exact absurd (he ▸ hmem) hk
        · exact h
    · simp only [dedupKeep, if_neg hmem, List.map_cons, List.mem_cons]
      by_cases hke : k = r.getD i Cell.na
      · simp [hke]
      · have hk2 : k ∉ r.getD i Cell.na :: seen := by
          intro h
          rcases List.mem_cons.mp h with he | hs
          · exact hke he
          · exact hk hs
        rw [ih _ k hk2]

theorem dropDuplicates_spec {d d2 : DF} {c : String}
    (h : d.dropDuplicates c = Except.ok d2) :
    d2.cols = d.cols ∧ ∃ i, d.colIdx c = some i ∧ d2.rows = dedupKeep i [] d.rows := by
  cases hidx : d.colIdx c with
  | none => simp [DF.dropDuplicates, hidx] at h
  | some i =>
    rw [DF.dropDuplicates, hidx] at h
    injection h with h2
    subst h2
    exact ⟨rfl, i, rfl, rfl⟩

/-! ### Infrastructure lemmas: the sort comparators -/

theorem Dec.le_total_bool (x y : Dec) : (Dec.le x y || Dec.le y x) = true := by
  simp only [Dec.le, Bool.or_eq_true, decide_eq_true_eq]
  exact Int.le_total _ _

theorem Dec.le_trans_bool {x y z : Dec} (h1 : Dec.le x y = true) (h2 : Dec.le y z = true) :
    Dec.le x z = true := by
  simp only [Dec.le, decide_eq_true_eq] at h1 h2 ⊢
  have hx : (0 : Int) ≤ 10 ^ x.e := le_of_lt (pow_pos (by norm_num) _)
  have hy : (0 : Int) < 10 ^ y.e := pow_pos (by norm_num) _
  have hz : (0 : Int) ≤ 10 ^ z.e := le_of_lt (pow_pos (by norm_num) _)
  nlinarith [mul_le_mul_of_nonneg_right h1 hz, mul_le_mul_of_nonneg_right h2 hx]

theorem strLeChars_total : ∀ as bs : List Char, (strLeChars as bs || strLeChars bs as) = true := by
  intro as
  induction as with
  | nil => intro bs; rfl
  | cons a as ih =>
    intro bs
    cases bs with
    | nil => rfl
    | cons b bs =>
      by_cases heq : a.toNat = b.toNat
      · rw [strLeChars, if_pos heq, strLeChars, if_pos heq.symm]
        exact ih bs
      · rw [strLeChars, if_neg heq, strLeChars, if_neg (Ne.symm heq)]
        simp only [Bool.or_eq_true, decide_eq_true_eq]
        omega

theorem strLeChars_trans : ∀ as bs cs : List Char,
    strLeChars as bs = true → strLeChars bs cs = true → strLeChars as cs = true := by
  intro as
  induction as with
  | nil => intro bs cs _ _; rfl
  | cons a as ih =>
    intro bs cs h1 h2
    cases bs with
    | nil => exact absurd h1 (by rw [strLeChars]; exact Bool.false_ne_true)
    | cons b bs =>
      cases cs with
      | nil => exact absurd h2 (by rw [strLeChars]; exact Bool.false_ne_true)
      | cons c cs =>
        by_cases e1 : a.toNat = b.toNat <;> by_cases e2 : b.toNat = c.toNat
        · rw [strLeChars, if_pos e1] at h1
          rw [strLeChars, if_pos e2] at h2
          rw [strLeChars, if_pos (e1.trans e2)]
          exact ih bs cs h1 h2
        · rw [strLeChars, if_pos e1] at h1
          rw [strLeChars, if_neg e2, decide_eq_true_eq] at h2
          rw [strLeChars, if_neg (by omega), decide_eq_true_eq]
          omega
        · rw [strLeChars, if_neg e1, decide_eq_true_eq] at h1
          rw [strLeChars, if_pos e2] at h2
          rw [strLeChars, if_neg (by omega), decide_eq_true_eq]
          omega
        · rw [strLeChars, if_neg e1, decide_eq_true_eq] at h1
          rw [strLeChars, if_neg e2, decide_eq_true_eq] at h2
          rw [strLeChars, if_neg (by omega), decide_eq_true_eq]
          omega

theorem cellValLe_total (a b : Cell) : (cellValLe a b || cellValLe b a) = true := by
  cases a <;> cases b <;>
    first
      | rfl
      | exact strLeChars_total _ _
      | simpa [cellValLe] using Dec.le_total_bool _ _
      | (simp only [cellValLe, Bool.or_eq_true, decide_eq_true_eq]; exact Int.le_total _ _)

theorem cellValLe_trans {a b c : Cell} (hab : cellRank a = cellRank b)
    (hbc : cellRank b = cellRank c) (h1 : cellValLe a b = true) (h2 : cellValLe b c = true) :
    cellValLe a c = true := by
  cases a <;> cases b <;> cases c <;>
    simp_all only [cellValLe, cellRank, decide_eq_true_eq] <;>
    first
      | rfl
      | omega
      | exact Dec.le_trans_bool h1 h2
      | exact strLeChars_trans _ _ _ h1 h2

theorem descLe_total (a b : Cell) : (descLe a b || descLe b a) = true := by
  unfold descLe
  by_cases h : cellRank a = cellRank b
  · rw [if_pos h, if_pos h.symm]
    exact cellValLe_total b a
  · rw [if_neg h, if_neg (Ne.symm h)]
    simp only [Bool.or_eq_true, decide_eq_true_eq]
    omega

theorem descLe_trans {a b c : Cell} (h1 : descLe a b = true) (h2 : descLe b c = true) :
    descLe a c = true := by
  unfold descLe at h1 h2 ⊢
  by_cases hab : cellRank a = cellRank b <;> by_cases hbc : cellRank b = cellRank c
  · rw [if_pos hab] at h1
    rw [if_pos hbc] at h2
    rw [if_pos (hab.trans hbc)]
    exact cellValLe_trans hbc.symm hab.symm h2 h1
  · rw [if_neg (fun h => hbc (hab.symm.trans h))]
    rw [if_neg hbc] at h2
    simp only [decide_eq_true_eq] at h2 ⊢
    omega
  · rw [if_neg hab] at h1
    rw [if_neg (fun h => hab (h.trans hbc.symm))]
    simp only [decide_eq_true_eq] at h1 ⊢
    omega
  · rw [if_neg hab] at h1
    rw [if_neg hbc] at h2
    simp only [decide_eq_true_eq] at h1 h2
    rw [if_neg (by omega)]
    simp only [decide_eq_true_eq]
    omega

/-! ### Infrastructure lemmas: sorting -/

theorem orderedInsertBy_perm {α : Type} (le : α → α → Bool) (a : α) :
    ∀ l : List α, List.Perm (orderedInsertBy le a l) (a :: l) := by
  intro l
  induction l with
  | nil => exact List.Perm.refl _
  | cons b l ih =>
    by_cases hab : le a b = true
    · rw [orderedInsertBy, if_pos hab]
    · rw [orderedInsertBy, if_neg hab]
      exact (ih.cons b).trans (List.Perm.swap a b l)

theorem sortBy_perm {α : Type} (le : α → α → Bool) :
    ∀ l : List α, List.Perm (sortBy le l) l := by
  intro l
  induction l with
  | nil => exact List.Perm.refl _
  | cons a l ih =>
    exact (orderedInsertBy_perm le a (sortBy le l)).trans (ih.cons a)

theorem orderedInsertBy_pairwise {α : Type} {le : α → α → Bool}
    (htotal : ∀ x y, (le x y || le y x) = true)
    (htrans : ∀ x y z, le x y = true → le y z = true → le x z = true)
    (a : α) : ∀ {l : List α}, List.Pairwise (fun x y => le x y = true) l →
      List.Pairwise (fun x y => le x y = true) (orderedInsertBy le a l) := by
  intro l
  induction l with
  | nil => intro _; simp [orderedInsertBy]
  | cons b l ih =>
    intro h
    rcases List.pairwise_cons.mp h with ⟨hb, hl⟩
    by_cases hab : le a b = true
    · rw [orderedInsertBy, if_pos hab]
      refine List.pairwise_cons.mpr ⟨?_, h⟩
      intro x hx
      rcases List.mem_cons.mp hx with rfl | hx
      · exact hab
      · exact htrans a b x hab (hb x hx)
    · rw [orderedInsertBy, if_neg hab]
      refine List.pairwise_cons.mpr ⟨?_, ih hl⟩
      intro x hx
      rcases List.mem_cons.mp ((orderedInsertBy_perm le a l).mem_iff.mp hx) with heq | hx
      · rw [heq]
        have h1 := htotal a b
        rw [Bool.or_eq_true] at h1
        rcases h1 with h1 | h1
        · exact absurd h1 hab
        · exact h1
      · exact hb x hx

theorem sortBy_pairwise {α : Type} {le : α → α → Bool}
    (htotal : ∀ x y, (le x y || le y x) = true)
    (htrans : ∀ x y z, le x y = true → le y z = true → le x z = true) :
    ∀ l : List α, List.Pairwise (fun x y => le x y = true) (sortBy le l) := by
  intro l
  induction l with
  | nil => simp [sortBy]
  | cons a l ih => exact orderedInsertBy_pairwise htotal htrans a ih

theorem sortValues_spec {d d2 : DF} {c : String} {asc : Bool}
    (h : d.sortValues c asc = Except.ok d2) :
    d2.cols = d.cols ∧ ∃ i, d.colIdx c = some i ∧
      d2.rows = sortBy (fun r1 r2 =>
        (if asc then ascLe else descLe) (r1.getD i Cell.na) (r2.getD i Cell.na)) d.rows := by
  cases hidx : d.colIdx c with
  | none => simp [DF.sortValues, hidx] at h
  | some i =>
    rw [DF.sortValues, hidx] at h
    injection h with h2
    subst h2
    exact ⟨rfl, i, rfl, rfl⟩

theorem sortValues_rows_perm {d d2 : DF} {c : String} {asc : Bool}
    (h : d.sortValues c asc = Except.ok d2) : List.Perm d2.rows d.rows := by
  rcases sortValues_spec h with ⟨-, i, -, hrows⟩
  rw [hrows]
  exact sortBy_perm _ d.rows

theorem sortValues_colVals_perm {d d2 : DF} {c : String} {asc : Bool}
    (h : d.sortValues c asc = Except.ok d2) (c2 : String) :
    List.Perm (d2.colVals c2) (d.colVals c2) := by
  rcases sortValues_spec h with ⟨hcols, -⟩
  cases hidx : d.colIdx c2 with
  | none =>
    have : d2.colIdx c2 = none := by rw [colIdx_eq_of_cols_eq hcols]; exact hidx
    simp [DF.colVals, this, hidx]
  | some j =>
    have hidx2 : d2.colIdx c2 = some j := by rw [colIdx_eq_of_cols_eq hcols]; exact hidx
    rw [colVals_eq_map hidx2, colVals_eq_map hidx]
    exact (sortValues_rows_perm h).map _

theorem sortValues_WF {d d2 : DF} {c : String} {asc : Bool}
    (h : d.sortValues c asc = Except.ok d2) (hw : d.WF) : d2.WF := by
  rcases sortValues_spec h with ⟨hcols, -⟩
  intro r hr
  rw [hcols]
  exact hw r ((sortValues_rows_perm h).mem_iff.mp hr)

theorem sortValues_desc_pairwise {d d2 : DF} {c : String}
    (h : d.sortValues c false = Except.ok d2) :
    List.Pairwise (fun a b => descLe a b = true) (d2.colVals c) := by
  rcases sortValues_spec h with ⟨hcols, i, hidx, hrows⟩
  have hidx2 : d2.colIdx c = some i := by rw [colIdx_eq_of_cols_eq hcols]; exact hidx
  rw [colVals_eq_map hidx2, hrows]
  have hsorted : (sortBy (fun r1 r2 =>
      (if false then ascLe else descLe) (r1.getD i Cell.na) (r2.getD i Cell.na)) d.rows).Pairwise
      (fun r1 r2 => ((if false then ascLe else descLe)
        (r1.getD i Cell.na) (r2.getD i Cell.na)) = true) := by
    apply sortBy_pairwise
    · intro a b
      exact descLe_total (a.getD i Cell.na) (b.getD i Cell.na)
    · intro a b cc hab hbc
      exact descLe_trans hab hbc
  exact hsorted.map _ (fun r1 r2 hr => by simpa using hr)

/-! ### Infrastructure lemmas: the left join -/

theorem joinMatch_eq {k a b : Cell} (ha : joinMatch k a = true) (hb : joinMatch k b = true) :
    a = b := by
  cases k <;> cases a <;> cases b <;> simp_all [joinMatch]

theorem filter_joinMatch_len {k : Cell} {ri : Nat} :
    ∀ {rows : List Row}, ((rows.map (fun rr => rr.getD ri Cell.na)).Nodup) →
      (rows.filter (fun rr => joinMatch k (rr.getD ri Cell.na))).length ≤ 1 := by
  intro rows
  induction rows with
  | nil => simp
  | cons rr rest ih =>
    intro h
    simp only [List.map_cons, List.nodup_cons] at h
    by_cases hm : joinMatch k (rr.getD ri Cell.na) = true
    · have hempty : rest.filter (fun r2 => joinMatch k (r2.getD ri Cell.na)) = [] := by
        apply List.filter_eq_nil_iff.mpr
        intro r2 hr2 hp
        exact h.1 ((joinMatch_eq hm hp) ▸ List.mem_map_of_mem _ hr2)
      rw [List.filter_cons]
      rw [if_pos hm, hempty]
      simp
    · rw [List.filter_cons]
      rw [if_neg hm]
      exact ih h.2

theorem flatMap_eq_map_of_singleton {α β : Type} {f : α → List β} {g : α → β} :
    ∀ {l : List α}, (∀ a ∈ l, f a = [g a]) → l.flatMap f = l.map g := by
  intro l
  induction l with
  | nil => intro _; rfl
  | cons a as ih =>
    intro h
    rw [List.flatMap_cons, h a (List.mem_cons_self _ _), ih (fun x hx => h x (List.mem_cons_of_mem _ hx))]
    rfl

theorem mergeLeft_spec {l r m : DF} {key : String} {li ri : Nat}
    (hli : l.colIdx key = some li) (hri : r.colIdx key = some ri)
    (hlw : l.WF) (hrw : r.WF)
    (hnd : ((r.rows).map (fun rr => rr.getD ri Cell.na)).Nodup)
    (h : mergeLeft l r key = Except.ok m) :
    m.cols = l.cols ++ r.cols.eraseIdx ri ∧
    m.rows.map (fun row => row.getD li Cell.na) = l.rows.map (fun row => row.getD li Cell.na) ∧
    m.rows.length = l.rows.length ∧ m.WF := by
  rw [mergeLeft, hli, hri] at h
  injection h with h2
  subst h2
  have hlilt : li < l.cols.length := colIdx_lt hli
  have hrilt : ri < r.cols.length := colIdx_lt hri
  set rcols := r.cols.eraseIdx ri with hrcols
  set f : Row → List Row := fun lr =>
    match r.rows.filter (fun rr => joinMatch (lr.getD li Cell.na) (rr.getD ri Cell.na)) with
    | [] => [lr ++ rcols.map (fun _ => Cell.na)]
    | ms => ms.map (fun rr => lr ++ rr.eraseIdx ri) with hf
  have key_one : ∀ lr ∈ l.rows, ∃ w, f lr = [w] ∧
      w.getD li Cell.na = lr.getD li Cell.na ∧ w.length = l.cols.length + rcols.length := by
    intro lr hlr
    have hlen : lr.length = l.cols.length := hlw lr hlr
    have hflt := @filter_joinMatch_len (lr.getD li Cell.na) ri r.rows hnd
    cases hfil : r.rows.filter (fun rr => joinMatch (lr.getD li Cell.na) (rr.getD ri Cell.na)) with
    | nil =>
      refine ⟨lr ++ rcols.map (fun _ => Cell.na), ?_, ?_, ?_⟩
      · simp only [hf, hfil]
      · simp [List.getD_eq_getElem?_getD, List.getElem?_append_left (show li < lr.length by omega)]
      · simp [hlen]
    | cons rr rest =>
      have hrest : rest = [] := by
        rw [hfil] at hflt
        simp at hflt
        exact hflt
      subst hrest
      have hrrmem : rr ∈ r.rows := by
        have : rr ∈ r.rows.filter (fun rr => joinMatch (lr.getD li Cell.na) (rr.getD ri Cell.na)) := by
          rw [hfil]; exact List.mem_cons_self _ _
        exact (List.mem_filter.mp this).1
      have hrrlen : rr.length = r.cols.length := hrw rr hrrmem
      refine ⟨lr ++ rr.eraseIdx ri, ?_, ?_, ?_⟩
      · simp only [hf, hfil, List.map_cons, List.map_nil]
      · simp [List.getD_eq_getElem?_getD, List.getElem?_append_left (show li < lr.length by omega)]
      · have : (rr.eraseIdx ri).length = r.cols.length - 1 := by
          rw [List.length_eraseIdx_of_lt (by omega)]
          omega
        have hrc : rcols.length = r.cols.length - 1 := by
          rw [hrcols, List.length_eraseIdx_of_lt hrilt]
        simp [hlen, this, hrc]
  have hmap : l.rows.flatMap f = l.rows.map (fun lr => (f lr).headD []) := by
    apply flatMap_eq_map_of_singleton
    intro a ha
    rcases key_one a ha with ⟨w, hw, -, -⟩
    rw [hw]
    rfl
  refine ⟨rfl, ?_, ?_, ?_⟩
  · show (l.rows.flatMap f).map _ = _
    rw [hmap, List.map_map]
    apply List.map_congr_left
    intro lr hlr
    rcases key_one lr hlr with ⟨w, hw, hwk, -⟩
    show ((f lr).headD []).getD li Cell.na = lr.getD li Cell.na
    rw [hw]
    exact hwk
  · show (l.rows.flatMap f).length = _
    rw [hmap, List.length_map]
  · intro w hw
    show w.length = (l.cols ++ rcols).length
    rcases List.mem_flatMap.mp hw with ⟨lr, hlr, hwin⟩
    rcases key_one lr hlr with ⟨w2, hw2, -, hwlen⟩
    rw [hw2] at hwin
    simp only [List.mem_singleton] at hwin
    subst hwin
    simp [hwlen]

theorem mergeLeft_colIdx_key {l r m : DF} {key : String} {li ri : Nat}
    (hli : l.colIdx key = some li) (hri : r.colIdx key = some ri)
    (h : mergeLeft l r key = Except.ok m) :
    m.colIdx key = some li := by
  rw [mergeLeft, hli, hri] at h
  injection h with h2
  subst h2
  show (l.cols ++ r.cols.eraseIdx ri).findIdx? (fun x => x == key) = some li
  rw [List.findIdx?_append]
  rw [show l.cols.findIdx? (fun x => x == key) = some li from hli]
  rfl

theorem mergeLeft_empty_right {l r m : DF} {key : String} {li ri : Nat}
    (hli : l.colIdx key = some li) (hri : r.colIdx key = some ri)
    (hre : r.rows = []) (h : mergeLeft l r key = Except.ok m) :
    m.cols = l.cols ++ r.cols.eraseIdx ri ∧
    m.rows = l.rows.map (fun lr => lr ++ (r.cols.eraseIdx ri).map (fun _ => Cell.na)) := by
  rw [mergeLeft, hli, hri] at h
  injection h with h2
  subst h2
  refine ⟨rfl, ?_⟩
  show List.flatMap _ _ = _
  apply flatMap_eq_map_of_singleton
  intro lr hlr
  rw [hre]
  rfl

theorem joinMatch_true_eq {k kv : Cell} (h : joinMatch k kv = true) : k = kv := by
  cases k <;> cases kv <;> simp_all [joinMatch]

theorem getD_append_left {l1 l2 : List Cell} {i : Nat} (h : i < l1.length) :
    (l1 ++ l2).getD i Cell.na = l1.getD i Cell.na := by
  simp [List.getD_eq_getElem?_getD, List.getElem?_append_left h]

theorem getD_append_add {l1 l2 : List Cell} (j : Nat) :
    (l1 ++ l2).getD (j + l1.length) Cell.na = l2.getD j Cell.na := by
  rw [List.getD_eq_getElem?_getD, List.getD_eq_getElem?_getD,
    List.getElem?_append_right (Nat.le_add_left _ _), Nat.add_sub_cancel]

theorem getD_map_const_na {l : List String} {j : Nat} (h : j < l.length) :
    (l.map (fun _ => Cell.na)).getD j Cell.na = Cell.na := by
  rw [List.getD_eq_getElem?_getD, List.getElem?_map, List.getElem?_eq_getElem h]
  rfl

/-- Every row of a left join is a left row followed by a tail of the
right width; the tail is the all-missing padding unless the left key
matched some right row. -/
theorem mergeLeft_rows_shape {l r m : DF} {key : String} {li ri : Nat}
    (hli : l.colIdx key = some li) (hri : r.colIdx key = some ri)
    (hrw : r.WF) (h : mergeLeft l r key = Except.ok m) :
    ∀ w ∈ m.rows, ∃ lr ∈ l.rows, ∃ tail : Row,
      w = lr ++ tail ∧ tail.length = (r.cols.eraseIdx ri).length ∧
      ((∃ rr ∈ r.rows, joinMatch (lr.getD li Cell.na) (rr.getD ri Cell.na) = true) ∨
        tail = (r.cols.eraseIdx ri).map (fun _ => Cell.na)) := by
  rw [mergeLeft, hli, hri] at h
  injection h with h2
  subst h2
  intro w hw
  rcases List.mem_flatMap.mp hw with ⟨lr, hlr, hwin⟩
  cases hfil : r.rows.filter
      (fun rr => joinMatch (lr.getD li Cell.na) (rr.getD ri Cell.na)) with
  | nil =>
    simp only [hfil, List.mem_singleton] at hwin
    exact ⟨lr, hlr, (r.cols.eraseIdx ri).map (fun _ => Cell.na), hwin,
      by simp, Or.inr rfl⟩
  | cons rr rest =>
    simp only [hfil] at hwin
    rcases List.mem_map.mp hwin with ⟨rr2, hrr2, rfl⟩
    have hrr2f : rr2 ∈ r.rows.filter
        (fun rr => joinMatch (lr.getD li Cell.na) (rr.getD ri Cell.na)) := by
      rw [hfil]
      exact hrr2
    have hrr2r : rr2 ∈ r.rows := (List.mem_filter.mp hrr2f).1
    refine ⟨lr, hlr, rr2.eraseIdx ri, rfl, ?_,
      Or.inl ⟨rr2, hrr2r, (List.mem_filter.mp hrr2f).2⟩⟩
    rw [List.length_eraseIdx_of_lt (by rw [hrw rr2 hrr2r]; exact colIdx_lt hri),
      List.length_eraseIdx_of_lt (colIdx_lt hri), hrw rr2 hrr2r]

/-- A left join needs no key uniqueness to be well-formed. -/
theorem mergeLeft_WF {l r m : DF} {key : String} {li ri : Nat}
    (hli : l.colIdx key = some li) (hri : r.colIdx key = some ri)
    (hlw : l.WF) (hrw : r.WF) (h : mergeLeft l r key = Except.ok m) : m.WF := by
  have hcols : m.cols = l.cols ++ r.cols.eraseIdx ri := by
    rw [mergeLeft, hli, hri] at h
    injection h with h2
    subst h2
    rfl
  intro w hw
  rcases mergeLeft_rows_shape hli hri hrw h w hw with ⟨lr, hlr, tail, rfl, htlen, -⟩
  rw [hcols]
  simp only [List.length_append]
  rw [hlw lr hlr, htlen]

/-- Every row of a left join agrees with some left row on all left
positions. -/
theorem mergeLeft_getD_left {l r m : DF} {key : String} {li ri : Nat}
    (hli : l.colIdx key = some li) (hri : r.colIdx key = some ri)
    (hlw : l.WF) (hrw : r.WF) (h : mergeLeft l r key = Except.ok m) :
    ∀ w ∈ m.rows, ∃ lr ∈ l.rows, ∀ i, i < l.cols.length →
      w.getD i Cell.na = lr.getD i Cell.na := by
  intro w hw
  rcases mergeLeft_rows_shape hli hri hrw h w hw with ⟨lr, hlr, tail, rfl, -, -⟩
  exact ⟨lr, hlr, fun i hi => getD_append_left (by rw [hlw lr hlr]; exact hi)⟩

/-- A joined row whose key value occurs nowhere in the right key column
holds the missing marker in every right position. -/
theorem mergeLeft_unmatched_na {l r m : DF} {key : String} {li ri j : Nat}
    (hli : l.colIdx key = some li) (hri : r.colIdx key = some ri)
    (hlw : l.WF) (hrw : r.WF) (h : mergeLeft l r key = Except.ok m)
    (hj : j < (r.cols.eraseIdx ri).length) :
    ∀ w ∈ m.rows, w.getD li Cell.na ∉ r.colVals key →
      w.getD (j + l.cols.length) Cell.na = Cell.na := by
  intro w hw hnot
  rcases mergeLeft_rows_shape hli hri hrw h w hw with ⟨lr, hlr, tail, rfl, htlen, hcase⟩
  have hlrlen : lr.length = l.cols.length := hlw lr hlr
  have hlilt : li < lr.length := by rw [hlrlen]; exact colIdx_lt hli
  rcases hcase with ⟨rr, hrr, hpred⟩ | htail
  · exfalso
    apply hnot
    rw [getD_append_left hlilt, joinMatch_true_eq hpred, colVals_eq_map hri]
    exact List.mem_map_of_mem _ hrr
  · rw [← hlrlen, getD_append_add, htail, getD_map_const_na hj]

/-! ### Infrastructure lemmas: zero filling -/

theorem fillZeroCols_cols (cs : List String) :
    ∀ d : DF, (fillZeroCols d cs).cols = d.cols := by
  induction cs with
  | nil => intro d; rfl
  | cons c rest ih =>
    intro d
    show (fillZeroCols (d.mapCol c fillCell) rest).cols = d.cols
    rw [ih, mapCol_cols]

theorem fillZeroCols_WF (cs : List String) :
    ∀ d : DF, d.WF → (fillZeroCols d cs).WF := by
  induction cs with
  | nil => intro d h; exact h
  | cons c rest ih =>
    intro d h
    exact ih _ (mapCol_WF c fillCell h)

theorem fillZeroCols_rows_length (cs : List String) :
    ∀ d : DF, (fillZeroCols d cs).rows.length = d.rows.length := by
  induction cs with
  | nil => intro d; rfl
  | cons c rest ih =>
    intro d
    show (fillZeroCols (d.mapCol c fillCell) rest).rows.length = d.rows.length
    rw [ih, mapCol_rows_length]

theorem fillZeroCols_colVals_not_mem (cs : List String) {c : String} (hc : c ∉ cs) :
    ∀ d : DF, (fillZeroCols d cs).colVals c = d.colVals c := by
  induction cs with
  | nil => intro d; rfl
  | cons c0 rest ih =>
    intro d
    have hne : c0 ≠ c := fun h => hc (h ▸ List.mem_cons_self c0 rest)
    have hrest : c ∉ rest := fun h => hc (List.mem_cons_of_mem c0 h)
    show (fillZeroCols (d.mapCol c0 fillCell) rest).colVals c = d.colVals c
    rw [ih hrest, mapCol_colVals_ne fillCell hne]

theorem fillZeroCols_colVals_mem (cs : List String) {c : String} (hnd : cs.Nodup) (hc : c ∈ cs) :
    ∀ d : DF, d.WF → (fillZeroCols d cs).colVals c = (d.colVals c).map fillCell := by
  induction cs with
  | nil => simp at hc
  | cons c0 rest ih =>
    intro d hw
    simp only [List.nodup_cons] at hnd
    rcases List.mem_cons.mp hc with rfl | hcr
    · show (fillZeroCols (d.mapCol c fillCell) rest).colVals c = (d.colVals c).map fillCell
      rw [fillZeroCols_colVals_not_mem rest hnd.1, mapCol_colVals_self fillCell hw]
    · have hne : c0 ≠ c := fun h => hnd.1 (h ▸ hcr)
      show (fillZeroCols (d.mapCol c0 fillCell) rest).colVals c = (d.colVals c).map fillCell
      rw [ih hnd.2 hcr _ (mapCol_WF c0 fillCell hw), mapCol_colVals_ne fillCell hne]

theorem fillCell_idem (x : Cell) : fillCell (fillCell x) = fillCell x := by
  cases x <;> rfl

/-- Row-level description of the zero fill: every output row is an input
row with the listed columns' positions passed through `fillCell` and
every other position unchanged. -/
theorem fillZeroCols_rows_rel (cs : List String) :
    ∀ d : DF, cs.Nodup → d.WF → ∀ w ∈ (fillZeroCols d cs).rows, ∃ r ∈ d.rows,
      (∀ i : Nat, (∀ c ∈ cs, d.colIdx c ≠ some i) →
        w.getD i Cell.na = r.getD i Cell.na) ∧
      (∀ c ∈ cs, ∀ i : Nat, d.colIdx c = some i →
        w.getD i Cell.na = fillCell (r.getD i Cell.na)) := by
  induction cs with
  | nil =>
    intro d _ _ w hw
    exact ⟨w, hw, fun i _ => rfl, fun c hc => absurd hc (List.not_mem_nil c)⟩
  | cons c rest ih =>
    intro d hnd hw w hwin
    simp only [List.nodup_cons] at hnd
    have hwin2 : w ∈ (fillZeroCols (d.mapCol c fillCell) rest).rows := hwin
    rcases ih (d.mapCol c fillCell) hnd.2 (mapCol_WF c fillCell hw) w hwin2 with
      ⟨r2, hr2, hkeep, hfill⟩
    have hidx2 : ∀ c2, (d.mapCol c fillCell).colIdx c2 = d.colIdx c2 := fun c2 =>
      colIdx_eq_of_cols_eq (mapCol_cols d c fillCell) c2
    cases hic : d.colIdx c with
    | none =>
      have hmape : d.mapCol c fillCell = d := by simp only [DF.mapCol, hic]
      rw [hmape] at hr2
      refine ⟨r2, hr2, ?_, ?_⟩
      · intro i hall
        apply hkeep
        intro c2 hc2
        rw [hidx2]
        exact hall c2 (List.mem_cons_of_mem _ hc2)
      · intro c2 hc2 i hi
        rcases List.mem_cons.mp hc2 with rfl | hc2r
        · rw [hic] at hi
          exact Option.noConfusion hi
        · exact hfill c2 hc2r i (by rw [hidx2]; exact hi)
    | some ic =>
      have hiclt : ic < d.cols.length := colIdx_lt hic
      have hmrows : (d.mapCol c fillCell).rows =
          d.rows.map (fun r => r.set ic (fillCell (r.getD ic Cell.na))) := by
        simp only [DF.mapCol, hic]
      rw [hmrows] at hr2
      rcases List.mem_map.mp hr2 with ⟨r, hr, rfl⟩
      have hrlen : ic < r.length := by rw [hw r hr]; exact hiclt
      have hname : ∀ c3 ∈ rest, d.colIdx c3 ≠ some ic := by
        intro c3 hc3 hcon
        rcases colIdx_getElem hcon with ⟨hlt3, hget3⟩
        rcases colIdx_getElem hic with ⟨hlt, hget⟩
        have hc3c : c3 = c := by
          rw [← hget3]
          exact hget
        exact hnd.1 (hc3c ▸ hc3)
      refine ⟨r, hr, ?_, ?_⟩
      · intro i hall
        have hine : ic ≠ i := fun he => hall c (List.mem_cons_self c rest) (he ▸ hic)
        have h1 : w.getD i Cell.na =
            (r.set ic (fillCell (r.getD ic Cell.na))).getD i Cell.na := by
          apply hkeep
          intro c2 hc2
          rw [hidx2]
          exact hall c2 (List.mem_cons_of_mem _ hc2)
        rw [h1, getD_set_ne hine]
      · intro c2 hc2 i hi
        rcases List.mem_cons.mp hc2 with rfl | hc2r
        · rw [hic] at hi
          injection hi with hie
          subst hie
          have hkic : w.getD ic Cell.na =
              (r.set ic (fillCell (r.getD ic Cell.na))).getD ic Cell.na := by
            apply hkeep
            intro c3 hc3
            rw [hidx2]
            exact hname c3 hc3
          rw [hkic, getD_set_self hrlen]
        · have h2 := hfill c2 hc2r i (by rw [hidx2]; exact hi)
          by_cases hieq : i = ic
          · subst hieq
            rw [h2, getD_set_self hrlen, fillCell_idem]
          · rw [h2, getD_set_ne (fun he => hieq he.symm)]

/-! ### Infrastructure lemmas: reset, rename, strip, setCols, dropna -/

theorem renameCol_rows (d : DF) (a b : String) : (d.renameCol a b).rows = d.rows := rfl

theorem renameCol_WF {d : DF} (a b : String) (h : d.WF) : (d.renameCol a b).WF := by
  intro r hr
  show r.length = (d.cols.map _).length
  rw [List.length_map]
  exact h r hr

theorem stripColNames_rows (d : DF) : d.stripColNames.rows = d.rows := rfl

theorem stripColNames_WF {d : DF} (h : d.WF) : d.stripColNames.WF := by
  intro r hr
  show r.length = (d.cols.map _).length
  rw [List.length_map]
  exact h r hr

theorem zipWith_cons_length {n : Nat} :
    ∀ (as : List Cell) (bs : List Row), (∀ b ∈ bs, b.length = n) →
      ∀ w ∈ List.zipWith (fun c r => c :: r) as bs, w.length = n + 1 := by
  intro as
  induction as with
  | nil => intro bs _ w hw; simp at hw
  | cons a rest ih =>
    intro bs hb w hw
    cases bs with
    | nil => simp at hw
    | cons b bs2 =>
      simp only [List.zipWith_cons_cons, List.mem_cons] at hw
      rcases hw with rfl | hw
      · simp [hb b (List.mem_cons_self _ _)]
      · exact ih bs2 (fun x hx => hb x (List.mem_cons_of_mem _ hx)) w hw

theorem resetIndexIfNamed_WF {p : PDF} (h : p.WF) : (resetIndexIfNamed p).WF := by
  cases hn : p.indexName with
  | none =>
    intro r hr
    simp only [resetIndexIfNamed, hn] at hr ⊢
    exact h.1 r hr
  | some nm =>
    intro r hr
    simp only [resetIndexIfNamed, hn] at hr ⊢
    show r.length = p.cols.length + 1
    exact zipWith_cons_length p.index p.rows h.1 r hr

theorem setColE_rows_length {d d2 : DF} {c : String} {f : Cell → Except String Cell}
    (h : d.setColE c f = Except.ok d2) : d2.rows.length = d.rows.length := by
  rcases setColE_spec h with ⟨-, i, -, hfa⟩
  exact forall₂_length hfa

theorem setColE_WF {d d2 : DF} {c : String} {f : Cell → Except String Cell}
    (h : d.setColE c f = Except.ok d2) (hw : d.WF) : d2.WF := by
  rcases setColE_spec h with ⟨hcols, i, -, hfa⟩
  intro r2 hr2
  rcases forall₂_mem_right hfa r2 hr2 with ⟨r, hr, v, -, rfl⟩
  rw [hcols]
  simpa using hw r hr

theorem forall₂_imp_mem {α β : Type} {R S : α → β → Prop} :
    ∀ {l : List α} {l2 : List β}, List.Forall₂ R l l2 →
      (∀ a ∈ l, ∀ b, R a b → S a b) → List.Forall₂ S l l2 := by
  intro l
  induction l with
  | nil => intro l2 h _; cases h; exact List.Forall₂.nil
  | cons a as ih =>
    intro l2 h himp
    cases h with
    | cons hr hrest =>
      exact List.Forall₂.cons (himp a (List.mem_cons_self _ _) _ hr)
        (ih hrest (fun x hx b hb => himp x (List.mem_cons_of_mem _ hx) b hb))

theorem setColE_colVals {d d2 : DF} {c : String} {f : Cell → Except String Cell}
    (hw : d.WF) (h : d.setColE c f = Except.ok d2) :
    List.Forall₂ (fun x y => f x = Except.ok y) (d.colVals c) (d2.colVals c) := by
  rcases setColE_spec h with ⟨hcols, i, hidx, hfa⟩
  have hilt : i < d.cols.length := colIdx_lt hidx
  have hidx2 : d2.colIdx c = some i := by rw [colIdx_eq_of_cols_eq hcols]; exact hidx
  rw [colVals_eq_map hidx, colVals_eq_map hidx2]
  rw [List.forall₂_map_right_iff, List.forall₂_map_left_iff]
  apply forall₂_imp_mem hfa
  intro r hrmem r2 hr
  rcases hr with ⟨v, hv, rfl⟩
  have hlt : i < r.length := by rw [hw r hrmem]; exact hilt
  rw [getD_set_self hlt]
  exact hv

theorem dropnaSubset_spec {d d2 : DF} {c : String}
    (h : d.dropnaSubset c = Except.ok d2) :
    d2.cols = d.cols ∧ ∃ i, d.colIdx c = some i ∧
      d2.rows = d.rows.filter (fun r => notNa (r.getD i Cell.na)) := by
  cases hidx : d.colIdx c with
  | none => simp [DF.dropnaSubset, hidx] at h
  | some i =>
    rw [DF.dropnaSubset, hidx] at h
    injection h with h2
    subst h2
    exact ⟨rfl, i, rfl, rfl⟩

/-! ### Stage lemmas: price-table normalization -/

theorem normOhlcv_inv {raw : PDF} {p : DF} (h : normOhlcv raw = Except.ok p) :
    ∃ d2 d4 d5,
      (ohlcvRenamed raw).setColE "일자" toDatetimeFmt = Except.ok d2 ∧
      (normalizeNumeric d2 priceNumCols).select
        (ohlcvBase (normalizeNumeric d2 priceNumCols)) = Except.ok d4 ∧
      d4.dropDuplicates "일자" = Except.ok d5 ∧
      d5.sortValues "일자" true = Except.ok p := by
  unfold normOhlcv at h
  split at h
  · exact Except.noConfusion h
  · next d2 heq2 =>
    unfold ohlcvFinish at h
    split at h
    · exact Except.noConfusion h
    · next d4 heq4 =>
      split at h
      · exact Except.noConfusion h
      · next d5 heq5 =>
        exact ⟨d2, d4, d5, heq2, heq4, heq5, h⟩

theorem normOhlcv_spec {raw : PDF} {p : DF} (h : normOhlcv raw = Except.ok p) :
    p.WF ∧ p.cols.Sublist baseColsAll ∧ p.cols.head? = some "일자" ∧
    p.colIdx "일자" = some 0 ∧ (p.colVals "일자").Nodup := by
  rcases normOhlcv_inv h with ⟨d2, d4, d5, h2, h4, h5, hsort⟩
  rcases setColE_spec h2 with ⟨hc2, i, hidx1, -⟩
  have hmem : "일자" ∈ (normalizeNumeric d2 priceNumCols).cols := by
    rw [normalizeNumeric_cols, hc2]
    rcases colIdx_getElem hidx1 with ⟨hlt, hget⟩
    exact hget ▸ List.getElem_mem hlt
  have hcontains : (normalizeNumeric d2 priceNumCols).cols.contains "일자" = true := by
    simpa [List.contains] using hmem
  have hbase : ∃ t, ohlcvBase (normalizeNumeric d2 priceNumCols) = "일자" :: t := by
    show ∃ t, baseColsAll.filter _ = "일자" :: t
    rw [baseColsAll, List.filter_cons, if_pos hcontains]
    exact ⟨_, rfl⟩
  rcases hbase with ⟨t, hbase⟩
  have hd4cols : d4.cols = "일자" :: t := by rw [(select_spec h4).1, hbase]
  have hd4head : d4.cols.head? = some "일자" := by rw [hd4cols]; rfl
  have hd4idx : d4.colIdx "일자" = some 0 := colIdx_head hd4head
  have hd4wf : d4.WF := select_WF h4
  rcases dropDuplicates_spec h5 with ⟨hc5, j, hjidx, hrows5⟩
  have hj0 : j = 0 := by
    rw [hd4idx] at hjidx
    exact (Option.some.inj hjidx).symm
  subst hj0
  have hd5cols : d5.cols = d4.cols := hc5
  have hd5idx : d5.colIdx "일자" = some 0 := by
    rw [colIdx_eq_of_cols_eq hd5cols]; exact hd4idx
  have hd5wf : d5.WF := by
    intro r hr
    rw [hd5cols]
    exact hd4wf r ((dedupKeep_sublist 0 d4.rows []).subset (hrows5 ▸ hr))
  have hd5nd : (d5.colVals "일자").Nodup := by
    rw [colVals_eq_map hd5idx, hrows5]
    exact (dedupKeep_spec 0 d4.rows []).2
  rcases sortValues_spec hsort with ⟨hpcols, -⟩
  have hphead : p.cols.head? = some "일자" := by rw [hpcols, hd5cols]; exact hd4head
  refine ⟨sortValues_WF hsort hd5wf, ?_, hphead, colIdx_head hphead, ?_⟩
  · rw [hpcols, hd5cols, (select_spec h4).1]
    exact List.filter_sublist baseColsAll
  · exact ((sortValues_colVals_perm hsort "일자").nodup_iff).mpr hd5nd

/-- When the provider returns the documented OHLCV schema
(날짜 index plus the seven price columns), all base columns survive and
the normalized price table has exactly the canonical seven columns. -/
theorem normOhlcv_cols_of_schema {raw : PDF} {p : DF} (h : normOhlcv raw = Except.ok p)
    (hcols : (ohlcvRenamed raw).cols = "일자" :: priceNumCols) :
    p.cols = baseColsAll := by
  rcases normOhlcv_inv h with ⟨d2, d4, d5, h2, h4, h5, hsort⟩
  have hc2 : d2.cols = "일자" :: priceNumCols := by
    rw [(setColE_spec h2).1, hcols]
  have hbase : ohlcvBase (normalizeNumeric d2 priceNumCols) = baseColsAll := by
    show baseColsAll.filter _ = baseColsAll
    rw [normalizeNumeric_cols, hc2]
    decide
  have hd4 : d4.cols = baseColsAll := by rw [(select_spec h4).1, hbase]
  rw [(sortValues_spec hsort).1, (dropDuplicates_spec h5).1, hd4]

/-! ### Stage lemmas: short-table normalization -/

theorem toDatetimeFmt_ok_shape {x y : Cell} (h : toDatetimeFmt x = Except.ok y) :
    y = Cell.na ∨ ∃ z, y = Cell.str (fmtDash z) := by
  cases x with
  | date z => exact Or.inr ⟨z, (Except.ok.inj h).symm⟩
  | na => exact Or.inl (Except.ok.inj h).symm
  | num q => exact Or.inr ⟨ratNsToDays q, (Except.ok.inj h).symm⟩
  | str s =>
    rw [show toDatetimeFmt (Cell.str s) = (match stripChars s.data with
      | [] => Except.ok Cell.na
      | cs =>
        match parseDateChars cs with
        | some z => Except.ok (Cell.str (fmtDash z))
        | none => Except.error ("could not convert to datetime: " ++ s)) from rfl] at h
    split at h
    · exact Or.inl (Except.ok.inj h).symm
    · split at h
      · next z heq => exact Or.inr ⟨z, (Except.ok.inj h).symm⟩
      · exact Except.noConfusion h

theorem normShortMain_inv {p : PDF} {src : String} {names numCols : List String} {v : DF}
    (h : normShortMain p src names numCols = Except.ok v) :
    ∃ c0 rest d1 d3,
      (shortBase p).cols = c0 :: rest ∧
      (shortBase p).select
        [if (shortBase p).cols.contains "날짜" then "날짜" else c0, src, "비중"] = Except.ok d1 ∧
      (d1.setCols names).setColE "일자" toDatetimeFmt = Except.ok d3 ∧
      (normalizeNumeric d3 numCols).dropnaSubset "일자" = Except.ok v := by
  unfold normShortMain at h
  split at h
  · exact Except.noConfusion h
  · next c0 rest heqcols =>
    split at h
    · exact Except.noConfusion h
    · next d1 heqsel =>
      split at h
      · exact Except.noConfusion h
      · next d3 heqset =>
        exact ⟨c0, rest, d1, d3, heqcols, heqsel, heqset, h⟩

theorem normShortMain_track {p : PDF} {src n1 n2 : String} {numCols : List String} {v : DF}
    (hnum : "일자" ∉ numCols) (hpw : p.WF)
    (h : normShortMain p src ["일자", n1, n2] numCols = Except.ok v) :
    v.cols = ["일자", n1, n2] ∧ v.WF ∧
    ∃ dateCol fdates,
      ((shortBase p).cols.contains "날짜" = true → dateCol = "날짜") ∧
      ((shortBase p).cols.contains "날짜" = false → (shortBase p).cols.head? = some dateCol) ∧
      List.Forall₂ (fun x y => toDatetimeFmt x = Except.ok y)
        ((shortBase p).colVals dateCol) fdates ∧
      v.colVals "일자" = fdates.filter notNa := by
  rcases normShortMain_inv h with ⟨c0, rest, d1, d3, heqcols, heqsel, heqset, heqdrop⟩
  have hbw : (shortBase p).WF := stripColNames_WF (resetIndexIfNamed_WF hpw)
  set dateCol := if (shortBase p).cols.contains "날짜" then "날짜" else c0 with hdc
  rcases select_spec heqsel with ⟨hd1cols, idxs, hfa, hd1rows⟩
  have hd1wf : d1.WF := select_WF heqsel
  have hd1head : d1.cols.head? = some dateCol := by rw [hd1cols]; rfl
  have hd1idx : d1.colIdx dateCol = some 0 := colIdx_head hd1head
  have hd1vals : d1.colVals dateCol = (shortBase p).colVals dateCol :=
    select_colVals heqsel (List.mem_cons_self _ _)
  -- the renamed table d2 := d1.setCols names
  have hd2cols : (d1.setCols ["일자", n1, n2]).cols = ["일자", n1, n2] := rfl
  have hd2idx : (d1.setCols ["일자", n1, n2]).colIdx "일자" = some 0 :=
    colIdx_head (by rw [hd2cols]; rfl)
  have hd2vals : (d1.setCols ["일자", n1, n2]).colVals "일자" = d1.colVals dateCol := by
    rw [colVals_eq_map hd2idx, colVals_eq_map hd1idx]
    rfl
  have hd2wf : (d1.setCols ["일자", n1, n2]).WF := by
    intro r hr
    show r.length = 3
    have := hd1wf r hr
    rw [hd1cols] at this
    simpa using this
  have hfd := setColE_colVals hd2wf heqset
  rw [hd2vals, hd1vals] at hfd
  have hd3cols : d3.cols = ["일자", n1, n2] := (setColE_spec heqset).1
  have hd3wf : d3.WF := setColE_WF heqset hd2wf
  have hd3idx : d3.colIdx "일자" = some 0 := colIdx_head (by rw [hd3cols]; rfl)
  -- numeric normalization leaves the date column alone
  have hnn_cols : (normalizeNumeric d3 numCols).cols = d3.cols := normalizeNumeric_cols _ _
  have hnn_vals : (normalizeNumeric d3 numCols).colVals "일자" = d3.colVals "일자" :=
    normalizeNumeric_colVals_not_mem _ hnum _
  have hnn_wf : (normalizeNumeric d3 numCols).WF := normalizeNumeric_WF _ _ hd3wf
  have hnn_idx : (normalizeNumeric d3 numCols).colIdx "일자" = some 0 := by
    rw [colIdx_eq_of_cols_eq hnn_cols]; exact hd3idx
  rcases dropnaSubset_spec heqdrop with ⟨hvcols, j, hjidx, hvrows⟩
  have hj0 : j = 0 := by
    rw [hnn_idx] at hjidx
    exact (Option.some.inj hjidx).symm
  subst hj0
  have hvcols2 : v.cols = ["일자", n1, n2] := by rw [hvcols, hnn_cols, hd3cols]
  have hvidx : v.colIdx "일자" = some 0 := colIdx_head (by rw [hvcols2]; rfl)
  refine ⟨hvcols2, ?_, dateCol, d3.colVals "일자", ?_, ?_, ?_, ?_⟩
  · intro r hr
    rw [hvcols2]
    rw [hvrows] at hr
    have := hnn_wf r (List.filter_sublist _ |>.subset hr)
    rw [hnn_cols, hd3cols] at this
    simpa using this
  · intro hcont
    rw [hdc, if_pos hcont]
  · intro hcont
    rw [hdc, if_neg (by rw [hcont]; exact Bool.false_ne_true), heqcols]
    rfl
  · exact hfd
  · rw [colVals_eq_map hvidx, hvrows, ← hnn_vals, colVals_eq_map hnn_idx]
    rw [List.filter_map]
    rfl

theorem normShort_spec {raw : Option PDF} {src n1 n2 : String} {numCols : List String} {v : DF}
    (hnum : "일자" ∉ numCols)
    (hw : ∀ p, raw = some p → p.WF)
    (h : normShort raw src ["일자", n1, n2] numCols = Except.ok v) :
    v.cols = ["일자", n1, n2] ∧ v.WF ∧
    ∀ c ∈ v.colVals "일자", ∃ z, c = Cell.str (fmtDash z) := by
  cases raw with
  | none =>
    have hv : v = emptyShort ["일자", n1, n2] := (Except.ok.inj h).symm
    subst hv
    refine ⟨rfl, ?_, ?_⟩
    · intro r hr; simp [emptyShort] at hr
    · intro c hc
      simp [DF.colVals, emptyShort, DF.colIdx] at hc
  | some p =>
    rw [normShort] at h
    by_cases he : pdfEmpty p = true
    · rw [if_pos he] at h
      have hv : v = emptyShort ["일자", n1, n2] := (Except.ok.inj h).symm
      subst hv
      refine ⟨rfl, ?_, ?_⟩
      · intro r hr; simp [emptyShort] at hr
      · intro c hc
        simp [DF.colVals, emptyShort, DF.colIdx] at hc
    · rw [if_neg he] at h
      rcases normShortMain_track hnum (hw p rfl) h with
        ⟨hcols, hwf, dateCol, fdates, -, -, hfa, hvals⟩
      refine ⟨hcols, hwf, ?_⟩
      intro c hc
      rw [hvals] at hc
      have hcn : notNa c = true := (List.mem_filter.mp hc).2
      rcases forall₂_mem_right hfa c (List.mem_filter.mp hc).1 with ⟨x, -, hx⟩
      rcases toDatetimeFmt_ok_shape hx with rfl | ⟨z, rfl⟩
      · simp [notNa] at hcn
      · exact ⟨z, rfl⟩

/-! ### Pipeline inversion -/

theorem mergePhase_inv {o v b out : DF} (h : mergePhase o v b = Except.ok out) :
    ∃ m1 m2, mergeLeft o v "일자" = Except.ok m1 ∧ mergeLeft m1 b "일자" = Except.ok m2 ∧
      (fillZeroCols m2 shortFillCols).sortValues "일자" false = Except.ok out := by
  unfold mergePhase at h
  split at h
  · exact Except.noConfusion h
  · next m1 heq1 =>
    split at h
    · exact Except.noConfusion h
    · next m2 heq2 =>
      exact ⟨m1, m2, heq1, heq2, h⟩

theorem pipeline_inv {f : Fetched} {out : DF} (h : pipeline f = Except.ok out) :
    ∃ rawO o rawV v rawB b,
      f.ohlcv = Except.ok rawO ∧ normOhlcv rawO = Except.ok o ∧
      f.sv = Except.ok rawV ∧
      normShort rawV "공매도" svNames ["공매도", "공매도비중"] = Except.ok v ∧
      f.sb = Except.ok rawB ∧
      normShort rawB "공매도잔고" sbNames ["공매도잔고", "공매도잔고비중"] = Except.ok b ∧
      mergePhase o v b = Except.ok out := by
  unfold pipeline at h
  split at h
  · exact Except.noConfusion h
  · next rawO heqO =>
    split at h
    · exact Except.noConfusion h
    · next o heqo =>
      split at h
      · exact Except.noConfusion h
      · next rawV heqV =>
        split at h
        · exact Except.noConfusion h
        · next v heqv =>
          split at h
          · exact Except.noConfusion h
          · next rawB heqB =>
            split at h
            · exact Except.noConfusion h
            · next b heqb =>
              exact ⟨rawO, o, rawV, v, rawB, b, heqO, heqo, heqV, heqv, heqB, heqb, h⟩

/-! ### The merge phase: shared consequences -/

theorem findIdx?_append_right_helper {l1 l2 : List String} {c : String} {j : Nat}
    (h1 : c ∉ l1) (h2 : l2.findIdx? (fun x => x == c) = some j) :
    (l1 ++ l2).findIdx? (fun x => x == c) = some (j + l1.length) := by
  rw [List.findIdx?_append]
  have hnone : l1.findIdx? (fun x => x == c) = none := by
    apply List.findIdx?_eq_none_iff.mpr
    intro x hx
    simp only [beq_eq_false_iff_ne, ne_eq]
    intro hxc
    exact h1 (hxc ▸ hx)
  rw [hnone, h2]
  rfl

theorem findIdx?_append_left_helper {l1 l2 : List String} {c : String} {j : Nat}
    (h1 : l1.findIdx? (fun x => x == c) = some j) :
    (l1 ++ l2).findIdx? (fun x => x == c) = some j := by
  rw [List.findIdx?_append, h1]
  rfl

/-- Everything the final merge-fill-sort phase guarantees about the
output, given the shapes the three normalized tables always have. -/
theorem mergePhase_spec {o v b out : DF} {vn1 vn2 bn1 bn2 : String}
    (hohead : o.cols.head? = some "일자")
    (how : o.WF)
    (hvcols : v.cols = ["일자", vn1, vn2])
    (hbcols : b.cols = ["일자", bn1, bn2])
    (hvw : v.WF) (hbw : b.WF)
    (hvn : (v.colVals "일자").Nodup) (hbn : (b.colVals "일자").Nodup)
    (h : mergePhase o v b = Except.ok out) :
    out.cols = o.cols ++ [vn1, vn2] ++ [bn1, bn2] ∧
    out.rows.length = o.rows.length ∧
    List.Perm (out.colVals "일자") (o.colVals "일자") ∧
    List.Pairwise (fun a b => descLe a b = true) (out.colVals "일자") := by
  rcases mergePhase_inv h with ⟨m1, m2, h1, h2, h3⟩
  have hoidx : o.colIdx "일자" = some 0 := colIdx_head hohead
  have hvidx : v.colIdx "일자" = some 0 := colIdx_head (by rw [hvcols]; rfl)
  have hbidx : b.colIdx "일자" = some 0 := colIdx_head (by rw [hbcols]; rfl)
  have hvnd : (v.rows.map (fun rr => rr.getD 0 Cell.na)).Nodup := by
    rw [← colVals_eq_map hvidx]; exact hvn
  have hbnd : (b.rows.map (fun rr => rr.getD 0 Cell.na)).Nodup := by
    rw [← colVals_eq_map hbidx]; exact hbn
  rcases mergeLeft_spec hoidx hvidx how hvw hvnd h1 with ⟨hm1cols, hm1vals, hm1len, hm1wf⟩
  have hm1cols2 : m1.cols = o.cols ++ [vn1, vn2] := by
    rw [hm1cols, hvcols]; rfl
  have hm1idx : m1.colIdx "일자" = some 0 := mergeLeft_colIdx_key hoidx hvidx h1
  rcases mergeLeft_spec hm1idx hbidx hm1wf hbw hbnd h2 with ⟨hm2cols, hm2vals, hm2len, hm2wf⟩
  have hm2cols2 : m2.cols = o.cols ++ [vn1, vn2] ++ [bn1, bn2] := by
    rw [hm2cols, hbcols, hm1cols2]; rfl
  have hm2idx : m2.colIdx "일자" = some 0 := mergeLeft_colIdx_key hm1idx hbidx h2
  -- the date column survives both merges unchanged
  have hm1v : m1.colVals "일자" = o.colVals "일자" := by
    rw [colVals_eq_map hm1idx, colVals_eq_map hoidx]
    exact hm1vals
  have hm2v : m2.colVals "일자" = o.colVals "일자" := by
    rw [colVals_eq_map hm2idx, hm2vals, ← colVals_eq_map hm1idx, hm1v]
  -- zero filling leaves the date column unchanged
  have hfillv : (fillZeroCols m2 shortFillCols).colVals "일자" = m2.colVals "일자" :=
    fillZeroCols_colVals_not_mem shortFillCols (by decide) m2
  have hfillcols : (fillZeroCols m2 shortFillCols).cols = m2.cols := fillZeroCols_cols _ _
  refine ⟨?_, ?_, ?_, ?_⟩
  · rw [(sortValues_spec h3).1, hfillcols, hm2cols2]
  · have := sortValues_rows_perm h3
    rw [this.length_eq, fillZeroCols_rows_length, hm2len, hm1len]
  · have hperm := sortValues_colVals_perm h3 "일자"
    rw [hfillv, hm2v] at hperm
    exact hperm
  · exact sortValues_desc_pairwise h3

/-- The column schema of a successful short-table normalization (no
shape hypotheses needed). -/
theorem normShort_cols {raw : Option PDF} {src n1 n2 : String} {numCols : List String} {v : DF}
    (h : normShort raw src ["일자", n1, n2] numCols = Except.ok v) :
    v.cols = ["일자", n1, n2] := by
  cases raw with
  | none => rw [← Except.ok.inj h]; rfl
  | some p =>
    rw [normShort] at h
    by_cases he : pdfEmpty p = true
    · rw [if_pos he] at h
      rw [← Except.ok.inj h]; rfl
    · rw [if_neg he] at h
      rcases normShortMain_inv h with ⟨c0, rest, d1, d3, -, -, heqset, heqdrop⟩
      rcases dropnaSubset_spec heqdrop with ⟨hvcols, -, -, -⟩
      rw [hvcols, normalizeNumeric_cols, (setColE_spec heqset).1]
      rfl

/-! ### Value-level tracking through price normalization -/

theorem normOhlcv_vals {raw : PDF} {p : DF} (h : normOhlcv raw = Except.ok p) :
    ∃ d2, (ohlcvRenamed raw).setColE "일자" toDatetimeFmt = Except.ok d2 ∧
      (∀ c, c ∈ p.colVals "일자" ↔ c ∈ d2.colVals "일자") := by
  rcases normOhlcv_inv h with ⟨d2, d4, d5, h2, h4, h5, hsort⟩
  refine ⟨d2, h2, ?_⟩
  rcases setColE_spec h2 with ⟨hc2, i, hidx1, -⟩
  have hmem : "일자" ∈ (normalizeNumeric d2 priceNumCols).cols := by
    rw [normalizeNumeric_cols, hc2]
    rcases colIdx_getElem hidx1 with ⟨hlt, hget⟩
    exact hget ▸ List.getElem_mem hlt
  have hcontains : (normalizeNumeric d2 priceNumCols).cols.contains "일자" = true := by
    simpa [List.contains] using hmem
  have hbasemem : "일자" ∈ ohlcvBase (normalizeNumeric d2 priceNumCols) := by
    show "일자" ∈ baseColsAll.filter _
    rw [baseColsAll, List.filter_cons, if_pos hcontains]
    exact List.mem_cons_self _ _
  have hd4vals : d4.colVals "일자" = (normalizeNumeric d2 priceNumCols).colVals "일자" :=
    select_colVals h4 hbasemem
  have hd3vals : (normalizeNumeric d2 priceNumCols).colVals "일자" = d2.colVals "일자" :=
    normalizeNumeric_colVals_not_mem _ (by decide) _
  have hd4head : d4.cols.head? = some "일자" := by
    rw [(select_spec h4).1]
    show (baseColsAll.filter _).head? = _
    rw [baseColsAll, List.filter_cons, if_pos hcontains]
    rfl
  have hd4idx : d4.colIdx "일자" = some 0 := colIdx_head hd4head
  rcases dropDuplicates_spec h5 with ⟨hc5, j, hjidx, hrows5⟩
  have hj0 : j = 0 := by rw [hd4idx] at hjidx; exact (Option.some.inj hjidx).symm
  subst hj0
  have hd5idx : d5.colIdx "일자" = some 0 := by
    rw [colIdx_eq_of_cols_eq hc5]; exact hd4idx
  intro c
  have hps := (sortValues_colVals_perm hsort "일자").mem_iff (a := c)
  rw [hps]
  rw [colVals_eq_map hd5idx, hrows5, ← hd3vals, ← hd4vals, colVals_eq_map hd4idx]
  exact dedupKeep_key_mem 0 d4.rows [] c (by simp)

/-- Every date value of the normalized price table is the
`pd.to_datetime`-image of a raw date cell: a missing value or a
formatted date string. -/
theorem normOhlcv_dates_shape {raw : PDF} {p : DF} (hw : raw.WF)
    (h : normOhlcv raw = Except.ok p) :
    ∀ c ∈ p.colVals "일자", c = Cell.na ∨ ∃ z, c = Cell.str (fmtDash z) := by
  rcases normOhlcv_vals h with ⟨d2, h2, hiff⟩
  intro c hc
  have hfa := setColE_colVals (renameCol_WF _ _ (resetIndexIfNamed_WF hw)) h2
  rcases forall₂_mem_right hfa c ((hiff c).mp hc) with ⟨x, -, hx⟩
  exact toDatetimeFmt_ok_shape hx

/-- The price table gets no missing-date filtering: a missing raw price
date survives normalization (contrast with the short tables, whose
missing-date rows are dropped). -/
theorem normOhlcv_na_retained {raw : PDF} {p : DF} (hw : raw.WF)
    (h : normOhlcv raw = Except.ok p)
    (hna : Cell.na ∈ (ohlcvRenamed raw).colVals "일자") :
    Cell.na ∈ p.colVals "일자" := by
  rcases normOhlcv_vals h with ⟨d2, h2, hiff⟩
  have hfa := setColE_colVals (renameCol_WF _ _ (resetIndexIfNamed_WF hw)) h2
  rcases forall₂_mem_left hfa Cell.na hna with ⟨y, hy, hxy⟩
  have : y = Cell.na := (Except.ok.inj hxy).symm
  subst this
  exact (hiff Cell.na).mpr hy

/-! ### Small helpers for the output schema -/

theorem head?_append_some {l l2 : List Char} {x : Char} (h : l.head? = some x) :
    (l ++ l2).head? = some x := by
  cases l with
  | nil => simp at h
  | cons a t => simpa using h

theorem mergeLeft_cols {l r m : DF} {key : String} {li ri : Nat}
    (hli : l.colIdx key = some li) (hri : r.colIdx key = some ri)
    (h : mergeLeft l r key = Except.ok m) :
    m.cols = l.cols ++ r.cols.eraseIdx ri := by
  rw [mergeLeft, hli, hri] at h
  injection h with h2
  subst h2
  rfl

/-- The output columns are the price columns followed by the four
short-selling columns, with no well-formedness assumptions needed. -/
theorem mergePhase_cols {o v b out : DF} {vn1 vn2 bn1 bn2 : String}
    (hohead : o.cols.head? = some "일자")
    (hvcols : v.cols = ["일자", vn1, vn2])
    (hbcols : b.cols = ["일자", bn1, bn2])
    (h : mergePhase o v b = Except.ok out) :
    out.cols = o.cols ++ [vn1, vn2] ++ [bn1, bn2] := by
  rcases mergePhase_inv h with ⟨m1, m2, h1, h2, h3⟩
  have hoidx : o.colIdx "일자" = some 0 := colIdx_head hohead
  have hvidx : v.colIdx "일자" = some 0 := colIdx_head (by rw [hvcols]; rfl)
  have hbidx : b.colIdx "일자" = some 0 := colIdx_head (by rw [hbcols]; rfl)
  have hm1cols : m1.cols = o.cols ++ [vn1, vn2] := by
    rw [mergeLeft_cols hoidx hvidx h1, hvcols]; rfl
  have hm1idx : m1.colIdx "일자" = some 0 := mergeLeft_colIdx_key hoidx hvidx h1
  have hm2cols : m2.cols = o.cols ++ [vn1, vn2] ++ [bn1, bn2] := by
    rw [mergeLeft_cols hm1idx hbidx h2, hbcols, hm1cols]; rfl
  rw [(sortValues_spec h3).1, fillZeroCols_cols, hm2cols]

/-! ### Concrete sample inputs used by the witnesses -/

def oneCell : Cell := Cell.num ⟨1, 0⟩

def zeroCell : Cell := Cell.num ⟨0, 0⟩

def samplePriceRow : Row := [oneCell, oneCell, oneCell, oneCell, oneCell, oneCell, oneCell]

/-- A provider price result with three trading dates (1970-01-01/02/03)
and the documented pykrx schema. -/
def samplePrice3 : PDF :=
  { indexName := some "날짜", index := [Cell.date 0, Cell.date 1, Cell.date 2],
    cols := priceNumCols,
    rows := [samplePriceRow, samplePriceRow, samplePriceRow] }

/-- A run where both short-selling fetches return no data. -/
def sampleFetchNoShort : Fetched :=
  { ohlcv := Except.ok samplePrice3, sv := Except.ok none, sb := Except.ok none }

/-- A run whose price fetch raises. -/
def sampleFetchErr : Fetched :=
  { ohlcv := Except.error "ConnectionError", sv := Except.ok none, sb := Except.ok none }

def sampleWorld : World := { outFile := some "old contents", writeOk := true }

/-- The normalized price table of `samplePrice3` (ascending by date). -/
def sampleO : DF :=
  { cols := baseColsAll,
    rows := [
      [Cell.str "1970-01-01", oneCell, oneCell, oneCell, oneCell, oneCell, oneCell],
      [Cell.str "1970-01-02", oneCell, oneCell, oneCell, oneCell, oneCell, oneCell],
      [Cell.str "1970-01-03", oneCell, oneCell, oneCell, oneCell, oneCell, oneCell]] }

/-- The pipeline output of `sampleFetchNoShort`: descending by date, the
four short-selling columns zero-filled. -/
def sampleOut : DF :=
  { cols := outSchema,
    rows := [
      [Cell.str "1970-01-03", oneCell, oneCell, oneCell, oneCell, oneCell, oneCell,
        zeroCell, zeroCell, zeroCell, zeroCell],
      [Cell.str "1970-01-02", oneCell, oneCell, oneCell, oneCell, oneCell, oneCell,
        zeroCell, zeroCell, zeroCell, zeroCell],
      [Cell.str "1970-01-01", oneCell, oneCell, oneCell, oneCell, oneCell, oneCell,
        zeroCell, zeroCell, zeroCell, zeroCell]] }

theorem sample_normOhlcv : normOhlcv samplePrice3 = Except.ok sampleO := by decide

theorem sample_pipeline : pipeline sampleFetchNoShort = Except.ok sampleOut := by decide

/-! ### C3 — the numeric normalizer -/

/-- C3: `_to_num` returns the value unchanged on an already-numeric cell
(float cast is the identity in the exact model); on any other value it
strips thousands-separator commas and surrounding whitespace and parses
as a float, so "1,234" yields the float 1234.0 (the scaled decimal
⟨1234, 0⟩, whose rational value is 1234); on parse failure — e.g. the
bare string "-" — it yields the missing marker none, which is not zero;
it is a total function, so it never raises. -/
theorem C3_to_num_normalizer :
    (∀ q : Dec, toNum (Cell.num q) = some q) ∧
    (∀ s : String, toNum (Cell.str s) =
      pyFloat (String.mk (stripChars (s.data.filter (fun c => !(c == ',')))))) ∧
    toNum (Cell.str "1,234") = some ⟨1234, 0⟩ ∧
    (⟨1234, 0⟩ : Dec).toRat = 1234 ∧
    toNum (Cell.str "-") = none ∧
    toNum (Cell.str "-") ≠ some (⟨0, 0⟩ : Dec) ∧
    toNum (Cell.str " 12.5 ") = some ⟨125, 1⟩ ∧
    toNum Cell.na = none := by
  refine ⟨fun q => rfl, fun s => rfl, by decide, ?_, by decide, by decide, by decide, rfl⟩
  norm_num [Dec.toRat]

/-! ### C6 — exit codes and the error prefix -/

/-- C6: the process exits 0 when `main` completes; any exception —
including a provider-fetch failure and a file-write failure — reaches the
top-level handler, which prints "[ERROR] " followed by the message to
standard error and exits 1. -/
theorem C6_exit_code_contract (f : Fetched) (w : World) :
    (∀ w2, mainRun f w = Except.ok w2 →
      runTop f w = { exitCode := 0, stderrLine := none, world := w2 }) ∧
    (∀ e, mainRun f w = Except.error e →
      runTop f w = { exitCode := 1, stderrLine := some ("[ERROR] " ++ e), world := w }) ∧
    (∀ e, f.ohlcv = Except.error e →
      (runTop f w).exitCode = 1 ∧ (runTop f w).stderrLine = some ("[ERROR] " ++ e)) ∧
    (∀ out, pipeline f = Except.ok out → w.writeOk = false →
      (runTop f w).exitCode = 1 ∧
      (runTop f w).stderrLine = some ("[ERROR] " ++ "OSError: write failed")) := by
  refine ⟨?_, ?_, ?_, ?_⟩
  · intro w2 hm
    unfold runTop
    rw [hm]
  · intro e hm
    unfold runTop
    rw [hm]
  · intro e hf
    have hpipe : pipeline f = Except.error e := by
      unfold pipeline
      rw [hf]
    have hm : mainRun f w = Except.error e := by
      unfold mainRun
      rw [hpipe]
    unfold runTop
    rw [hm]
    exact ⟨rfl, rfl⟩
  · intro out hpipe hwo
    have hm : mainRun f w = Except.error "OSError: write failed" := by
      unfold mainRun
      rw [hpipe, hwo]
      rfl
    unfold runTop
    rw [hm]
    exact ⟨rfl, rfl⟩

theorem C6_witness :
    (runTop sampleFetchErr sampleWorld).exitCode = 1 ∧
    (runTop sampleFetchErr sampleWorld).stderrLine = some ("[ERROR] " ++ "ConnectionError") :=
  (C6_exit_code_contract sampleFetchErr sampleWorld).2.2.1 "ConnectionError" rfl

/-! ### C7 — the write is the last step -/

/-- C7: the CSV write is the last step of the pipeline: when any earlier
stage fails — in particular when the price fetch raises — the output
file is neither created nor modified; the file is only (over)written
when the whole pipeline succeeds. -/
theorem C7_failed_run_leaves_file (f : Fetched) (w : World) :
    (∀ e, pipeline f = Except.error e → (runTop f w).world = w) ∧
    (∀ e, f.ohlcv = Except.error e →
      (runTop f w).world = w ∧ (runTop f w).world.outFile = w.outFile) ∧
    (∀ out, pipeline f = Except.ok out → w.writeOk = true →
      (runTop f w).world.outFile = some (toCsv out)) := by
  refine ⟨?_, ?_, ?_⟩
  · intro e hpipe
    have hm : mainRun f w = Except.error e := by
      unfold mainRun
      rw [hpipe]
    unfold runTop
    rw [hm]
  · intro e hf
    have hpipe : pipeline f = Except.error e := by
      unfold pipeline
      rw [hf]
    have hm : mainRun f w = Except.error e := by
      unfold mainRun
      rw [hpipe]
    unfold runTop
    rw [hm]
    exact ⟨rfl, rfl⟩
  · intro out hpipe hwo
    have hm : mainRun f w = Except.ok { w with outFile := some (toCsv out) } := by
      unfold mainRun
      rw [hpipe, hwo]
      rfl
    unfold runTop
    rw [hm]

theorem C7_witness :
    (runTop sampleFetchErr sampleWorld).world = sampleWorld ∧
    (runTop sampleFetchErr sampleWorld).world.outFile = some "old contents" :=
  (C7_failed_run_leaves_file sampleFetchErr sampleWorld).2.1 "ConnectionError" rfl

/-! ### Assembly helpers -/

theorem mergeLeft_isOk {l r : DF} {key : String} {li ri : Nat}
    (hli : l.colIdx key = some li) (hri : r.colIdx key = some ri) :
    ∃ m, mergeLeft l r key = Except.ok m := by
  rw [mergeLeft, hli, hri]
  exact ⟨_, rfl⟩

theorem sortValues_isOk {d : DF} {c : String} {i : Nat} (asc : Bool)
    (hidx : d.colIdx c = some i) : ∃ d2, d.sortValues c asc = Except.ok d2 := by
  rw [DF.sortValues, hidx]
  exact ⟨_, rfl⟩

theorem pipeline_eq_of {f : Fetched} {rawO : PDF} {o : DF} {rawV : Option PDF} {v : DF}
    {rawB : Option PDF} {b : DF}
    (hO : f.ohlcv = Except.ok rawO) (ho : normOhlcv rawO = Except.ok o)
    (hV : f.sv = Except.ok rawV)
    (hv : normShort rawV "공매도" svNames ["공매도", "공매도비중"] = Except.ok v)
    (hB : f.sb = Except.ok rawB)
    (hb : normShort rawB "공매도잔고" sbNames ["공매도잔고", "공매도잔고비중"] = Except.ok b) :
    pipeline f = mergePhase o v b := by
  unfold pipeline
  simp only [hO, ho, hV, hv, hB, hb]

theorem mergePhase_eq_of {o v b m1 m2 : DF}
    (h1 : mergeLeft o v "일자" = Except.ok m1) (h2 : mergeLeft m1 b "일자" = Except.ok m2) :
    mergePhase o v b = (fillZeroCols m2 shortFillCols).sortValues "일자" false := by
  unfold mergePhase
  simp only [h1, h2]

/-- With an empty right table, a right column of the join is entirely
missing. -/
theorem mergeLeft_empty_colVals_right {l r m : DF} {key c : String} {li ri j : Nat}
    (hli : l.colIdx key = some li) (hri : r.colIdx key = some ri)
    (hre : r.rows = []) (h : mergeLeft l r key = Except.ok m) (hlw : l.WF)
    (hcl : c ∉ l.cols) (hj : (r.cols.eraseIdx ri).findIdx? (fun x => x == c) = some j) :
    ∀ x ∈ m.colVals c, x = Cell.na := by
  rcases mergeLeft_empty_right hli hri hre h with ⟨hmcols, hmrows⟩
  have hmidx : m.colIdx c = some (j + l.cols.length) := by
    show m.cols.findIdx? (fun x => x == c) = _
    rw [hmcols]
    exact findIdx?_append_right_helper hcl hj
  have hjlt : j < (r.cols.eraseIdx ri).length := by
    rcases List.findIdx?_eq_some_iff_getElem.mp hj with ⟨hlt, -, -⟩
    exact hlt
  intro x hx
  rw [colVals_eq_map hmidx, hmrows] at hx
  simp only [List.map_map, List.mem_map] at hx
  rcases hx with ⟨lr, hlr, hval⟩
  have hlen : lr.length = l.cols.length := hlw lr hlr
  rw [← hval]
  show (lr ++ (r.cols.eraseIdx ri).map (fun _ => Cell.na)).getD (j + l.cols.length) Cell.na
    = Cell.na
  rw [List.getD_eq_getElem?_getD, List.getElem?_append_right (by omega)]
  have : j + l.cols.length - lr.length = j := by omega
  rw [this, List.getElem?_map, List.getElem?_eq_getElem hjlt]
  rfl

/-- With an empty right table, every left column of the join is
unchanged. -/
theorem mergeLeft_empty_colVals_left {l r m : DF} {key c : String} {li ri jc : Nat}
    (hli : l.colIdx key = some li) (hri : r.colIdx key = some ri)
    (hre : r.rows = []) (h : mergeLeft l r key = Except.ok m) (hlw : l.WF)
    (hjc : l.colIdx c = some jc) :
    m.colVals c = l.colVals c := by
  rcases mergeLeft_empty_right hli hri hre h with ⟨hmcols, hmrows⟩
  have hmidx : m.colIdx c = some jc := by
    show m.cols.findIdx? (fun x => x == c) = _
    rw [hmcols]
    exact findIdx?_append_left_helper hjc
  have hjclt : jc < l.cols.length := colIdx_lt hjc
  rw [colVals_eq_map hmidx, colVals_eq_map hjc, hmrows]
  simp only [List.map_map]
  apply List.map_congr_left
  intro lr hlr
  have hlen : lr.length = l.cols.length := hlw lr hlr
  show (lr ++ _).getD jc Cell.na = lr.getD jc Cell.na
  simp [List.getD_eq_getElem?_getD, List.getElem?_append_left (show jc < lr.length by omega)]

/-! ### C1 — the merge is a left join on the price dates -/

/-- C1: the merge is a left join keyed on the price table's 일자 column:
for every run (whose short tables have the unique dates the data model
guarantees), the set of date values of the output equals the set of
(deduplicated, hence distinct) date values of the normalized price
table, the output row count equals that number of distinct price dates,
and a date present only in a short-selling table never appears in the
output. -/
theorem C1_left_join_on_price_dates
    {f : Fetched} {out : DF} {rawO : PDF} {o : DF} {rawV : Option PDF} {v : DF}
    {rawB : Option PDF} {b : DF}
    (hp : pipeline f = Except.ok out)
    (hO : f.ohlcv = Except.ok rawO) (ho : normOhlcv rawO = Except.ok o)
    (hV : f.sv = Except.ok rawV)
    (hv : normShort rawV "공매도" svNames ["공매도", "공매도비중"] = Except.ok v)
    (hB : f.sb = Except.ok rawB)
    (hb : normShort rawB "공매도잔고" sbNames ["공매도잔고", "공매도잔고비중"] = Except.ok b)
    (hVW : ∀ p, rawV = some p → p.WF) (hBW : ∀ p, rawB = some p → p.WF)
    (hvn : (v.colVals "일자").Nodup) (hbn : (b.colVals "일자").Nodup) :
    out.rows.length = o.rows.length ∧
    (o.colVals "일자").Nodup ∧
    (∀ c, c ∈ out.colVals "일자" ↔ c ∈ o.colVals "일자") ∧
    (∀ c, c ∈ v.colVals "일자" → c ∉ o.colVals "일자" → c ∉ out.colVals "일자") := by
  have hmp : mergePhase o v b = Except.ok out := by
    rw [← pipeline_eq_of hO ho hV hv hB hb]
    exact hp
  rcases normOhlcv_spec ho with ⟨how, -, hohead, -, hond⟩
  rcases normShort_spec (by decide) hVW hv with ⟨hvcols, hvw, -⟩
  rcases normShort_spec (by decide) hBW hb with ⟨hbcols, hbw, -⟩
  rcases mergePhase_spec hohead how hvcols hbcols hvw hbw hvn hbn hmp with ⟨-, hlen, hperm, -⟩
  refine ⟨hlen, hond, fun c => hperm.mem_iff, ?_⟩
  intro c hcv hcno hcout
  exact hcno (hperm.mem_iff.mp hcout)

theorem C1_witness :
    sampleOut.rows.length = sampleO.rows.length ∧
    (sampleO.colVals "일자").Nodup ∧
    (∀ c, c ∈ sampleOut.colVals "일자" ↔ c ∈ sampleO.colVals "일자") ∧
    (∀ c, c ∈ (emptyShort svNames).colVals "일자" → c ∉ sampleO.colVals "일자" →
      c ∉ sampleOut.colVals "일자") :=
  C1_left_join_on_price_dates sample_pipeline rfl sample_normOhlcv rfl rfl rfl rfl
    (fun p hp => Option.noConfusion hp) (fun p hp => Option.noConfusion hp)
    (by decide) (by decide)

/-- A price result with a duplicated date (day 1 appears twice). -/
def samplePriceDup : PDF :=
  { indexName := some "날짜", index := [Cell.date 1, Cell.date 1, Cell.date 0],
    cols := priceNumCols,
    rows := [samplePriceRow, samplePriceRow, samplePriceRow] }

def sampleFetchDup : Fetched :=
  { ohlcv := Except.ok samplePriceDup, sv := Except.ok none, sb := Except.ok none }

/-- The normalized price table of `samplePriceDup`: the duplicate date
collapses to a single row. -/
def sampleODup : DF :=
  { cols := baseColsAll,
    rows := [
      [Cell.str "1970-01-01", oneCell, oneCell, oneCell, oneCell, oneCell, oneCell],
      [Cell.str "1970-01-02", oneCell, oneCell, oneCell, oneCell, oneCell, oneCell]] }

/-- The pipeline output of `sampleFetchDup`. -/
def sampleOutDup : DF :=
  { cols := outSchema,
    rows := [
      [Cell.str "1970-01-02", oneCell, oneCell, oneCell, oneCell, oneCell, oneCell,
        zeroCell, zeroCell, zeroCell, zeroCell],
      [Cell.str "1970-01-01", oneCell, oneCell, oneCell, oneCell, oneCell, oneCell,
        zeroCell, zeroCell, zeroCell, zeroCell]] }

theorem sampleDup_norm : normOhlcv samplePriceDup = Except.ok sampleODup := by decide

theorem sampleDup_pipeline : pipeline sampleFetchDup = Except.ok sampleOutDup := by decide

/-! ### C4 — descending order, no duplicate dates -/

/-- C4: the rows of the final output are sorted strictly descending by
the date string and contain no duplicate dates (in particular a
duplicated price date survives only once, which the witness exercises);
stated for runs whose price dates are all valid (non-missing) and whose
short tables have unique dates. -/
theorem C4_sorted_desc_no_duplicates
    {f : Fetched} {out : DF} {rawO : PDF} {o : DF} {rawV : Option PDF} {v : DF}
    {rawB : Option PDF} {b : DF}
    (hp : pipeline f = Except.ok out)
    (hO : f.ohlcv = Except.ok rawO) (ho : normOhlcv rawO = Except.ok o)
    (hV : f.sv = Except.ok rawV)
    (hv : normShort rawV "공매도" svNames ["공매도", "공매도비중"] = Except.ok v)
    (hB : f.sb = Except.ok rawB)
    (hb : normShort rawB "공매도잔고" sbNames ["공매도잔고", "공매도잔고비중"] = Except.ok b)
    (hOW : rawO.WF)
    (hVW : ∀ p, rawV = some p → p.WF) (hBW : ∀ p, rawB = some p → p.WF)
    (hvn : (v.colVals "일자").Nodup) (hbn : (b.colVals "일자").Nodup)
    (hnona : ∀ c ∈ o.colVals "일자", c ≠ Cell.na) :
    (out.colVals "일자").Nodup ∧
    List.Pairwise (fun a b => ∃ x y, a = Cell.str x ∧ b = Cell.str y ∧ strLt y x = true)
      (out.colVals "일자") := by
  have hmp : mergePhase o v b = Except.ok out := by
    rw [← pipeline_eq_of hO ho hV hv hB hb]
    exact hp
  rcases normOhlcv_spec ho with ⟨how, -, hohead, -, hond⟩
  rcases normShort_spec (by decide) hVW hv with ⟨hvcols, hvw, -⟩
  rcases normShort_spec (by decide) hBW hb with ⟨hbcols, hbw, -⟩
  rcases mergePhase_spec hohead how hvcols hbcols hvw hbw hvn hbn hmp with ⟨-, -, hperm, hpw⟩
  have houtnd : (out.colVals "일자").Nodup := hperm.nodup_iff.mpr hond
  have hshape : ∀ c ∈ out.colVals "일자", ∃ z, c = Cell.str (fmtDash z) := by
    intro c hc
    have hco : c ∈ o.colVals "일자" := hperm.mem_iff.mp hc
    rcases normOhlcv_dates_shape hOW ho c hco with rfl | hz
    · exact absurd rfl (hnona _ hco)
    · exact hz
  refine ⟨houtnd, ?_⟩
  have hcomb := hpw.and houtnd
  apply hcomb.imp_of_mem
  intro a b ha hb2 hr
  rcases hshape a ha with ⟨za, rfl⟩
  rcases hshape b hb2 with ⟨zb, rfl⟩
  rcases hr with ⟨hle, hne⟩
  refine ⟨fmtDash za, fmtDash zb, rfl, rfl, ?_⟩
  have hle2 : strLe (fmtDash zb) (fmtDash za) = true := by
    simpa [descLe, cellRank, cellValLe] using hle
  have hne2 : (fmtDash zb == fmtDash za) = false := by
    simp only [beq_eq_false_iff_ne, ne_eq]
    intro he
    exact hne (by rw [he])
  rw [strLt, hle2, hne2]
  rfl

theorem C4_witness :
    (sampleOutDup.colVals "일자").Nodup ∧
    List.Pairwise (fun a b => ∃ x y, a = Cell.str x ∧ b = Cell.str y ∧ strLt y x = true)
      (sampleOutDup.colVals "일자") :=
  C4_sorted_desc_no_duplicates sampleDup_pipeline rfl sampleDup_norm rfl rfl rfl rfl
    (by decide) (fun p hp => Option.noConfusion hp) (fun p hp => Option.noConfusion hp)
    (by decide) (by decide) (by decide)

/-! ### C9 — the fetch window -/

/-- C9: the fetch window is the inclusive range
[today − LOOKBACK_DAYS, today], both endpoints rendered as YYYYMMDD
strings (concretely, day ordinal 20006 gives ("20230906", "20241010")
for a 400-day lookback), LOOKBACK_DAYS defaults to 400 when the
environment variable is unset, and — when the provider honors the
requested range, i.e. every normalized price date lies in the window —
every output row's date lies within the window. -/
theorem C9_lookback_window
    {f : Fetched} {out : DF} {rawO : PDF} {o : DF} {rawV : Option PDF} {v : DF}
    {rawB : Option PDF} {b : DF} {today : Int}
    (hp : pipeline f = Except.ok out)
    (hO : f.ohlcv = Except.ok rawO) (ho : normOhlcv rawO = Except.ok o)
    (hV : f.sv = Except.ok rawV)
    (hv : normShort rawV "공매도" svNames ["공매도", "공매도비중"] = Except.ok v)
    (hB : f.sb = Except.ok rawB)
    (hb : normShort rawB "공매도잔고" sbNames ["공매도잔고", "공매도잔고비중"] = Except.ok b)
    (hVW : ∀ p, rawV = some p → p.WF) (hBW : ∀ p, rawB = some p → p.WF)
    (hvn : (v.colVals "일자").Nodup) (hbn : (b.colVals "일자").Nodup)
    (hwin : ∀ c ∈ o.colVals "일자",
      ∃ z, c = Cell.str (fmtDash z) ∧ today - 400 ≤ z ∧ z ≤ today) :
    lookbackDaysOf none = some 400 ∧
    (∀ t d : Int, yyyymmddRange t d = (fmt8 (t - d), fmt8 t)) ∧
    yyyymmddRange 20006 400 = ("20230906", "20241010") ∧
    (∀ c ∈ out.colVals "일자",
      ∃ z, c = Cell.str (fmtDash z) ∧ today - 400 ≤ z ∧ z ≤ today) := by
  have hmp : mergePhase o v b = Except.ok out := by
    rw [← pipeline_eq_of hO ho hV hv hB hb]
    exact hp
  rcases normOhlcv_spec ho with ⟨how, -, hohead, -, -⟩
  rcases normShort_spec (by decide) hVW hv with ⟨hvcols, hvw, -⟩
  rcases normShort_spec (by decide) hBW hb with ⟨hbcols, hbw, -⟩
  rcases mergePhase_spec hohead how hvcols hbcols hvw hbw hvn hbn hmp with ⟨-, -, hperm, -⟩
  refine ⟨by decide, fun t d => rfl, by decide, ?_⟩
  intro c hc
  exact hwin c (hperm.mem_iff.mp hc)

theorem C9_witness :
    lookbackDaysOf none = some 400 ∧
    (∀ t d : Int, yyyymmddRange t d = (fmt8 (t - d), fmt8 t)) ∧
    yyyymmddRange 20006 400 = ("20230906", "20241010") ∧
    (∀ c ∈ sampleOut.colVals "일자",
      ∃ z, c = Cell.str (fmtDash z) ∧ (3 : Int) - 400 ≤ z ∧ z ≤ 3) :=
  C9_lookback_window sample_pipeline rfl sample_normOhlcv rfl rfl rfl rfl
    (fun p hp => Option.noConfusion hp) (fun p hp => Option.noConfusion hp)
    (by decide) (by decide)
    (by
      intro c hc
      have hvals : sampleO.colVals "일자" =
          [Cell.str "1970-01-01", Cell.str "1970-01-02", Cell.str "1970-01-03"] := by decide
      rw [hvals] at hc
      rcases List.mem_cons.mp hc with rfl | hc
      · exact ⟨0, by decide, by decide, by decide⟩
      rcases List.mem_cons.mp hc with rfl | hc
      · exact ⟨1, by decide, by decide, by decide⟩
      rcases List.mem_cons.mp hc with rfl | hc
      · exact ⟨2, by decide, by decide, by decide⟩
      · simp at hc)

/-! ### C2 — unmatched dates get zeros in the short-selling columns -/

/-- A short-volume result covering only one of the price dates
(1970-01-02): the other output rows are unmatched in a non-empty short
table. -/
def sampleSvPartial : PDF :=
  { indexName := none, index := [Cell.na], cols := ["날짜", "공매도", "비중"],
    rows := [[Cell.date 1, oneCell, oneCell]] }

def sampleFetchPartial : Fetched :=
  { ohlcv := Except.ok samplePrice3, sv := Except.ok (some sampleSvPartial),
    sb := Except.ok none }

/-- The normalized short-volume table of `sampleSvPartial`. -/
def sampleVPartial : DF :=
  { cols := ["일자", "공매도", "공매도비중"],
    rows := [[Cell.str "1970-01-02", oneCell, oneCell]] }

/-- The pipeline output of `sampleFetchPartial`: the 1970-01-02 row
carries the short-volume data, every other row has zeros in all four
short-selling columns. -/
def sampleOutPartial : DF :=
  { cols := outSchema,
    rows := [
      [Cell.str "1970-01-03", oneCell, oneCell, oneCell, oneCell, oneCell, oneCell,
        zeroCell, zeroCell, zeroCell, zeroCell],
      [Cell.str "1970-01-02", oneCell, oneCell, oneCell, oneCell, oneCell, oneCell,
        oneCell, oneCell, zeroCell, zeroCell],
      [Cell.str "1970-01-01", oneCell, oneCell, oneCell, oneCell, oneCell, oneCell,
        zeroCell, zeroCell, zeroCell, zeroCell]] }

/-- The output row of `sampleOutPartial` for 1970-01-01: its date is
matched by neither short table of `sampleFetchPartial`. -/
def sampleRow01 : Row :=
  [Cell.str "1970-01-01", oneCell, oneCell, oneCell, oneCell, oneCell, oneCell,
    zeroCell, zeroCell, zeroCell, zeroCell]

/-- C2: first the general per-row statement — for every successful run,
with the short tables possibly non-empty, every output row whose date
value occurs nowhere in the normalized short-volume table's 일자 column
holds the float 0 (not a missing marker) in 공매도 and 공매도비중, and
likewise a date unmatched in the short-balance table gives 0 in
공매도잔고 and 공매도잔고비중: the left join pads exactly the unmatched
rows with missing values and fillna(0) turns those into 0.  Second, the
claim's special case: when both short-selling results are absent or
empty, the empty typed tables are substituted and the run succeeds, the
output has one row per normalized price date, rows ordered descending by
the date comparator, and the four short-selling columns hold the float 0
in every row (so price dates D1<D2<D3 with no short data yield rows
D3,D2,D1, all four short columns 0). -/
theorem C2_unmatched_short_fields_zero :
    (∀ (f : Fetched) (out : DF) (rawO : PDF) (o : DF) (rawV : Option PDF) (v : DF)
        (rawB : Option PDF) (b : DF),
      pipeline f = Except.ok out →
      f.ohlcv = Except.ok rawO → normOhlcv rawO = Except.ok o →
      f.sv = Except.ok rawV →
      normShort rawV "공매도" svNames ["공매도", "공매도비중"] = Except.ok v →
      f.sb = Except.ok rawB →
      normShort rawB "공매도잔고" sbNames ["공매도잔고", "공매도잔고비중"] = Except.ok b →
      (∀ p, rawV = some p → p.WF) → (∀ p, rawB = some p → p.WF) →
      ∀ w ∈ out.rows,
        (out.rowCell w "일자" ∉ v.colVals "일자" →
          out.rowCell w "공매도" = Cell.num ⟨0, 0⟩ ∧
          out.rowCell w "공매도비중" = Cell.num ⟨0, 0⟩) ∧
        (out.rowCell w "일자" ∉ b.colVals "일자" →
          out.rowCell w "공매도잔고" = Cell.num ⟨0, 0⟩ ∧
          out.rowCell w "공매도잔고비중" = Cell.num ⟨0, 0⟩)) ∧
    (∀ (f : Fetched) (rawO : PDF) (o : DF),
      f.ohlcv = Except.ok rawO → normOhlcv rawO = Except.ok o →
      (f.sv = Except.ok none ∨ ∃ p, f.sv = Except.ok (some p) ∧ pdfEmpty p = true) →
      (f.sb = Except.ok none ∨ ∃ p, f.sb = Except.ok (some p) ∧ pdfEmpty p = true) →
      ∃ out, pipeline f = Except.ok out ∧
        out.rows.length = o.rows.length ∧
        (∀ c ∈ shortFillCols, ∀ x ∈ out.colVals c, x = Cell.num ⟨0, 0⟩) ∧
        List.Pairwise (fun a b => descLe a b = true) (out.colVals "일자")) := by
  constructor
  · intro f out rawO o rawV v rawB b hp hO ho hV hv hB hb hVW hBW
    have hmp : mergePhase o v b = Except.ok out := by
      rw [← pipeline_eq_of hO ho hV hv hB hb]
      exact hp
    rcases normOhlcv_spec ho with ⟨how, hsub, hohead, hoidx, -⟩
    rcases normShort_spec (by decide) hVW hv with ⟨hvcols, hvw, -⟩
    rcases normShort_spec (by decide) hBW hb with ⟨hbcols, hbw, -⟩
    rcases mergePhase_inv hmp with ⟨m1, m2, h1, h2, h3⟩
    have hvidx : v.colIdx "일자" = some 0 := colIdx_head (by rw [hvcols]; rfl)
    have hbidx : b.colIdx "일자" = some 0 := colIdx_head (by rw [hbcols]; rfl)
    have hm1cols : m1.cols = o.cols ++ ["공매도", "공매도비중"] := by
      rw [mergeLeft_cols hoidx hvidx h1, hvcols]
      rfl
    have hm1idx : m1.colIdx "일자" = some 0 := mergeLeft_colIdx_key hoidx hvidx h1
    have hm1wf : m1.WF := mergeLeft_WF hoidx hvidx how hvw h1
    have hm2cols : m2.cols = m1.cols ++ ["공매도잔고", "공매도잔고비중"] := by
      rw [mergeLeft_cols hm1idx hbidx h2, hbcols]
      rfl
    have hm2idx : m2.colIdx "일자" = some 0 := mergeLeft_colIdx_key hm1idx hbidx h2
    have hm2wf : m2.WF := mergeLeft_WF hm1idx hbidx hm1wf hbw h2
    have hnoto : ∀ c ∈ shortFillCols, c ∉ o.cols := by
      intro c hc hmem
      exact (by decide : ∀ c ∈ shortFillCols, c ∉ baseColsAll) c hc (hsub.subset hmem)
    have hm1i1 : m1.colIdx "공매도" = some (0 + o.cols.length) := by
      show m1.cols.findIdx? (fun x => x == "공매도") = some (0 + o.cols.length)
      rw [hm1cols]
      exact findIdx?_append_right_helper (hnoto "공매도" (by decide))
        (by decide : (["공매도", "공매도비중"] : List String).findIdx?
          (fun x => x == "공매도") = some 0)
    have hm1i2 : m1.colIdx "공매도비중" = some (1 + o.cols.length) := by
      show m1.cols.findIdx? (fun x => x == "공매도비중") = some (1 + o.cols.length)
      rw [hm1cols]
      exact findIdx?_append_right_helper (hnoto "공매도비중" (by decide))
        (by decide : (["공매도", "공매도비중"] : List String).findIdx?
          (fun x => x == "공매도비중") = some 1)
    have hm2i1 : m2.colIdx "공매도" = some (0 + o.cols.length) := by
      show m2.cols.findIdx? (fun x => x == "공매도") = some (0 + o.cols.length)
      rw [hm2cols]
      exact findIdx?_append_left_helper hm1i1
    have hm2i2 : m2.colIdx "공매도비중" = some (1 + o.cols.length) := by
      show m2.cols.findIdx? (fun x => x == "공매도비중") = some (1 + o.cols.length)
      rw [hm2cols]
      exact findIdx?_append_left_helper hm1i2
    have hbnotm1 : ∀ c2, c2 ∈ (["공매도잔고", "공매도잔고비중"] : List String) →
        c2 ∉ m1.cols := by
      intro c2 hc2 hmem
      rw [hm1cols] at hmem
      rcases List.mem_append.mp hmem with hmem | hmem
      · refine hnoto c2 ?_ hmem
        rcases List.mem_cons.mp hc2 with rfl | hc2
        · decide
        rcases List.mem_cons.mp hc2 with rfl | hc2
        · decide
        · exact absurd hc2 (List.not_mem_nil c2)
      · rcases List.mem_cons.mp hc2 with rfl | hc2
        · exact absurd hmem (by decide)
        rcases List.mem_cons.mp hc2 with rfl | hc2
        · exact absurd hmem (by decide)
        · exact absurd hc2 (List.not_mem_nil c2)
    have hm2i3 : m2.colIdx "공매도잔고" = some (0 + m1.cols.length) := by
      show m2.cols.findIdx? (fun x => x == "공매도잔고") = some (0 + m1.cols.length)
      rw [hm2cols]
      exact findIdx?_append_right_helper (hbnotm1 "공매도잔고" (by decide))
        (by decide : (["공매도잔고", "공매도잔고비중"] : List String).findIdx?
          (fun x => x == "공매도잔고") = some 0)
    have hm2i4 : m2.colIdx "공매도잔고비중" = some (1 + m1.cols.length) := by
      show m2.cols.findIdx? (fun x => x == "공매도잔고비중") = some (1 + m1.cols.length)
      rw [hm2cols]
      exact findIdx?_append_right_helper (hbnotm1 "공매도잔고비중" (by decide))
        (by decide : (["공매도잔고", "공매도잔고비중"] : List String).findIdx?
          (fun x => x == "공매도잔고비중") = some 1)
    have hm1len : m1.cols.length = o.cols.length + 2 := by
      rw [hm1cols]
      simp
    have hm2row : ∀ w2 ∈ m2.rows,
        (w2.getD 0 Cell.na ∉ v.colVals "일자" →
          w2.getD (0 + o.cols.length) Cell.na = Cell.na ∧
          w2.getD (1 + o.cols.length) Cell.na = Cell.na) ∧
        (w2.getD 0 Cell.na ∉ b.colVals "일자" →
          w2.getD (0 + m1.cols.length) Cell.na = Cell.na ∧
          w2.getD (1 + m1.cols.length) Cell.na = Cell.na) := by
      intro w2 hw2
      rcases mergeLeft_getD_left hm1idx hbidx hm1wf hbw h2 w2 hw2 with ⟨w1, hw1, hleft⟩
      have hkey0 : w2.getD 0 Cell.na = w1.getD 0 Cell.na := hleft 0 (by omega)
      constructor
      · intro hnot
        have hnot1 : w1.getD 0 Cell.na ∉ v.colVals "일자" := by
          rw [← hkey0]
          exact hnot
        constructor
        · rw [hleft (0 + o.cols.length) (by omega)]
          exact mergeLeft_unmatched_na hoidx hvidx how hvw h1
            (by rw [hvcols]; decide) w1 hw1 hnot1
        · rw [hleft (1 + o.cols.length) (by omega)]
          exact mergeLeft_unmatched_na hoidx hvidx how hvw h1
            (by rw [hvcols]; decide) w1 hw1 hnot1
      · intro hnot
        exact ⟨mergeLeft_unmatched_na hm1idx hbidx hm1wf hbw h2
            (by rw [hbcols]; decide) w2 hw2 hnot,
          mergeLeft_unmatched_na hm1idx hbidx hm1wf hbw h2
            (by rw [hbcols]; decide) w2 hw2 hnot⟩
    have houtcols : out.cols = m2.cols := by
      rw [(sortValues_spec h3).1, fillZeroCols_cols]
    have houtidx : ∀ c2, out.colIdx c2 = m2.colIdx c2 := fun c2 =>
      colIdx_eq_of_cols_eq houtcols c2
    have hrc : ∀ (r2 : Row) (c2 : String) (i : Nat), m2.colIdx c2 = some i →
        out.rowCell r2 c2 = r2.getD i Cell.na := by
      intro r2 c2 i hi
      have hi2 : out.colIdx c2 = some i := by
        rw [houtidx]
        exact hi
      simp only [DF.rowCell, hi2]
    intro w hwout
    have hwfl : w ∈ (fillZeroCols m2 shortFillCols).rows :=
      (sortValues_rows_perm h3).subset hwout
    rcases fillZeroCols_rows_rel shortFillCols m2 (by decide) hm2wf w hwfl with
      ⟨w2, hw2, hkeep, hfill⟩
    have hdate : w.getD 0 Cell.na = w2.getD 0 Cell.na := by
      apply hkeep
      intro c2 hc2 hcon
      rcases colIdx_getElem hcon with ⟨hlt2, hget2⟩
      rcases colIdx_getElem hm2idx with ⟨hlt0, hget0⟩
      have hc2d : c2 = "일자" := by
        rw [← hget2]
        exact hget0
      exact (by decide : ∀ c3 ∈ shortFillCols, c3 ≠ "일자") c2 hc2 hc2d
    refine ⟨?_, ?_⟩
    · intro hnot
      have hnot2 : w2.getD 0 Cell.na ∉ v.colVals "일자" := by
        rw [← hdate, ← hrc w "일자" 0 hm2idx]
        exact hnot
      rcases (hm2row w2 hw2).1 hnot2 with ⟨hna1, hna2⟩
      constructor
      · rw [hrc w "공매도" (0 + o.cols.length) hm2i1,
          hfill "공매도" (by decide) (0 + o.cols.length) hm2i1, hna1]
        rfl
      · rw [hrc w "공매도비중" (1 + o.cols.length) hm2i2,
          hfill "공매도비중" (by decide) (1 + o.cols.length) hm2i2, hna2]
        rfl
    · intro hnot
      have hnot2 : w2.getD 0 Cell.na ∉ b.colVals "일자" := by
        rw [← hdate, ← hrc w "일자" 0 hm2idx]
        exact hnot
      rcases (hm2row w2 hw2).2 hnot2 with ⟨hna3, hna4⟩
      constructor
      · rw [hrc w "공매도잔고" (0 + m1.cols.length) hm2i3,
          hfill "공매도잔고" (by decide) (0 + m1.cols.length) hm2i3, hna3]
        rfl
      · rw [hrc w "공매도잔고비중" (1 + m1.cols.length) hm2i4,
          hfill "공매도잔고비중" (by decide) (1 + m1.cols.length) hm2i4, hna4]
        rfl
  · intro f rawO o hO ho hV hB
    have hsv : ∃ rawV, f.sv = Except.ok rawV ∧
        normShort rawV "공매도" svNames ["공매도", "공매도비중"] =
          Except.ok (emptyShort svNames) := by
      rcases hV with h | ⟨p, hps, hpe⟩
      · exact ⟨none, h, rfl⟩
      · refine ⟨some p, hps, ?_⟩
        simp [normShort, hpe]
    have hsb : ∃ rawB, f.sb = Except.ok rawB ∧
        normShort rawB "공매도잔고" sbNames ["공매도잔고", "공매도잔고비중"] =
          Except.ok (emptyShort sbNames) := by
      rcases hB with h | ⟨p, hps, hpe⟩
      · exact ⟨none, h, rfl⟩
      · refine ⟨some p, hps, ?_⟩
        simp [normShort, hpe]
    rcases hsv with ⟨rawV, hVs, hv⟩
    rcases hsb with ⟨rawB, hBs, hb⟩
    rcases normOhlcv_spec ho with ⟨how, hsub, hohead, hoidx, -⟩
    have hevidx : (emptyShort svNames).colIdx "일자" = some 0 := by decide
    have hebidx : (emptyShort sbNames).colIdx "일자" = some 0 := by decide
    have hevwf : (emptyShort svNames).WF := by decide
    have hebwf : (emptyShort sbNames).WF := by decide
    obtain ⟨m1, hm1⟩ := mergeLeft_isOk hoidx hevidx
    rcases mergeLeft_spec hoidx hevidx how hevwf (by decide) hm1 with
      ⟨hm1cols, -, hm1len, hm1wf⟩
    have hm1idx : m1.colIdx "일자" = some 0 := mergeLeft_colIdx_key hoidx hevidx hm1
    obtain ⟨m2, hm2⟩ := mergeLeft_isOk hm1idx hebidx
    rcases mergeLeft_spec hm1idx hebidx hm1wf hebwf (by decide) hm2 with
      ⟨hm2cols, -, hm2len, hm2wf⟩
    have hm2idx : m2.colIdx "일자" = some 0 := mergeLeft_colIdx_key hm1idx hebidx hm2
    have hm1cols2 : m1.cols = o.cols ++ ["공매도", "공매도비중"] := by
      rw [hm1cols]
      rfl
    have hfillidx : (fillZeroCols m2 shortFillCols).colIdx "일자" = some 0 := by
      rw [colIdx_eq_of_cols_eq (fillZeroCols_cols _ _)]
      exact hm2idx
    obtain ⟨out, hsort⟩ := sortValues_isOk false hfillidx
    have hpipe : pipeline f = Except.ok out := by
      rw [pipeline_eq_of hO ho hVs hv hBs hb, mergePhase_eq_of hm1 hm2]
      exact hsort
    refine ⟨out, hpipe, ?_, ?_, sortValues_desc_pairwise hsort⟩
    · rw [(sortValues_rows_perm hsort).length_eq, fillZeroCols_rows_length, hm2len, hm1len]
    · -- the four short columns are entirely missing before the fill
      have hnotbase : ∀ c ∈ shortFillCols, c ∉ baseColsAll := by decide
      intro c hc x hx
      have hnoto : c ∉ o.cols := fun hmem => hnotbase c hc (hsub.subset hmem)
      have hall : ∀ y ∈ m2.colVals c, y = Cell.na := by
        have hfour := hc
        rcases List.mem_cons.mp hfour with rfl | hfour
        · -- 공매도: filled as missing by the first merge, preserved by the second
          have h1 := mergeLeft_empty_colVals_right hoidx hevidx rfl hm1 how hnoto
            (by decide : ((emptyShort svNames).cols.eraseIdx 0).findIdx?
              (fun x => x == "공매도") = some 0)
          have hjc : m1.colIdx "공매도" = some (0 + o.cols.length) := by
            show m1.cols.findIdx? _ = _
            rw [hm1cols2]
            exact findIdx?_append_right_helper hnoto (by decide)
          have h2 := mergeLeft_empty_colVals_left hm1idx hebidx rfl hm2 hm1wf hjc
          rw [h2]
          exact h1
        rcases List.mem_cons.mp hfour with rfl | hfour
        · have h1 := mergeLeft_empty_colVals_right hoidx hevidx rfl hm1 how hnoto
            (by decide : ((emptyShort svNames).cols.eraseIdx 0).findIdx?
              (fun x => x == "공매도비중") = some 1)
          have hjc : m1.colIdx "공매도비중" = some (1 + o.cols.length) := by
            show m1.cols.findIdx? _ = _
            rw [hm1cols2]
            exact findIdx?_append_right_helper hnoto (by decide)
          have h2 := mergeLeft_empty_colVals_left hm1idx hebidx rfl hm2 hm1wf hjc
          rw [h2]
          exact h1
        · have hnotm1 : c ∉ m1.cols := by
            rw [hm1cols2]
            intro hmem
            rcases List.mem_append.mp hmem with hmem | hmem
            · exact hnoto hmem
            · rcases List.mem_cons.mp hfour with rfl | hfour
              · simp at hmem
              rcases List.mem_cons.mp hfour with rfl | hfour
              · simp at hmem
              · simp at hfour
          rcases List.mem_cons.mp hfour with rfl | hfour
          · exact mergeLeft_empty_colVals_right hm1idx hebidx rfl hm2 hm1wf hnotm1
              (by decide : ((emptyShort sbNames).cols.eraseIdx 0).findIdx?
                (fun x => x == "공매도잔고") = some 0)
          rcases List.mem_cons.mp hfour with rfl | hfour
          · exact mergeLeft_empty_colVals_right hm1idx hebidx rfl hm2 hm1wf hnotm1
              (by decide : ((emptyShort sbNames).cols.eraseIdx 0).findIdx?
                (fun x => x == "공매도잔고비중") = some 1)
          · simp at hfour
      have hfillv : (fillZeroCols m2 shortFillCols).colVals c = (m2.colVals c).map fillCell :=
        fillZeroCols_colVals_mem shortFillCols (by decide) hc m2 hm2wf
      have hx2 : x ∈ (fillZeroCols m2 shortFillCols).colVals c :=
        (sortValues_colVals_perm hsort c).mem_iff.mp hx
      rw [hfillv] at hx2
      rcases List.mem_map.mp hx2 with ⟨y, hy, rfl⟩
      rw [hall y hy]
      rfl

theorem samplePartial_pipeline :
    pipeline sampleFetchPartial = Except.ok sampleOutPartial := by decide

theorem C2_witness :
    ((sampleOutPartial.rowCell sampleRow01 "공매도" = Cell.num ⟨0, 0⟩ ∧
      sampleOutPartial.rowCell sampleRow01 "공매도비중" = Cell.num ⟨0, 0⟩) ∧
     (sampleOutPartial.rowCell sampleRow01 "공매도잔고" = Cell.num ⟨0, 0⟩ ∧
      sampleOutPartial.rowCell sampleRow01 "공매도잔고비중" = Cell.num ⟨0, 0⟩)) ∧
    (∃ out, pipeline sampleFetchNoShort = Except.ok out ∧
      out.rows.length = sampleO.rows.length ∧
      (∀ c ∈ shortFillCols, ∀ x ∈ out.colVals c, x = Cell.num ⟨0, 0⟩) ∧
      List.Pairwise (fun a b => descLe a b = true) (out.colVals "일자")) :=
  ⟨(fun h => ⟨h.1 (by decide), h.2 (by decide)⟩)
    (C2_unmatched_short_fields_zero.1 sampleFetchPartial sampleOutPartial
      samplePrice3 sampleO (some sampleSvPartial) sampleVPartial none
      (emptyShort sbNames) samplePartial_pipeline rfl sample_normOhlcv rfl
      (by decide) rfl (by decide)
      (fun p hp => by injection hp with h2; rw [← h2]; decide)
      (fun p hp => Option.noConfusion hp)
      sampleRow01 (by decide)),
   C2_unmatched_short_fields_zero.2 sampleFetchNoShort samplePrice3 sampleO rfl
     sample_normOhlcv (Or.inl rfl) (Or.inl rfl)⟩

/-! ### C8 — the written CSV schema and encoding -/

/-- C8: for a provider price table with the documented schema, the
written CSV's header row is exactly
일자,시가,고가,저가,종가,거래량,등락률,공매도,공매도비중,공매도잔고,공매도잔고비중
(so the raw 거래대금 column is excluded), the file is the header line
followed by one line per row, each line terminated by a line feed, and
the text starts with '일' — not a byte-order mark (the "utf-8" codec
writes the text verbatim). -/
theorem C8_csv_schema
    {f : Fetched} {out : DF} {rawO : PDF} {o : DF} {rawV : Option PDF} {v : DF}
    {rawB : Option PDF} {b : DF}
    (hp : pipeline f = Except.ok out)
    (hO : f.ohlcv = Except.ok rawO) (ho : normOhlcv rawO = Except.ok o)
    (hV : f.sv = Except.ok rawV)
    (hv : normShort rawV "공매도" svNames ["공매도", "공매도비중"] = Except.ok v)
    (hB : f.sb = Except.ok rawB)
    (hb : normShort rawB "공매도잔고" sbNames ["공매도잔고", "공매도잔고비중"] = Except.ok b)
    (hschema : (ohlcvRenamed rawO).cols = "일자" :: priceNumCols) :
    out.cols = outSchema ∧
    "거래대금" ∉ out.cols ∧
    csvLine out.cols =
      "일자,시가,고가,저가,종가,거래량,등락률,공매도,공매도비중,공매도잔고,공매도잔고비중" ∧
    toCsv out = csvLine out.cols ++ "
" ++
      concatLines (out.rows.map (fun r => csvLine (r.map renderCell))) ∧
    (toCsv out).data.head? = some '일' ∧
    ('일' : Char) ≠ '﻿' := by
  have hmp : mergePhase o v b = Except.ok out := by
    rw [← pipeline_eq_of hO ho hV hv hB hb]
    exact hp
  have hocols : o.cols = baseColsAll := normOhlcv_cols_of_schema ho hschema
  have hohead : o.cols.head? = some "일자" := by rw [hocols]; rfl
  have houtcols : out.cols = outSchema := by
    rw [mergePhase_cols hohead (normShort_cols hv) (normShort_cols hb) hmp, hocols]
    decide
  have hline : csvLine out.cols =
      "일자,시가,고가,저가,종가,거래량,등락률,공매도,공매도비중,공매도잔고,공매도잔고비중" := by
    rw [houtcols]
    decide
  refine ⟨houtcols, by rw [houtcols]; decide, hline, rfl, ?_, by decide⟩
  have h4 : toCsv out = csvLine out.cols ++ "
" ++
      concatLines (out.rows.map (fun r => csvLine (r.map renderCell))) := rfl
  rw [h4, hline, String.data_append, String.data_append]
  apply head?_append_some
  apply head?_append_some
  decide

theorem C8_witness :
    sampleOut.cols = outSchema ∧
    "거래대금" ∉ sampleOut.cols ∧
    csvLine sampleOut.cols =
      "일자,시가,고가,저가,종가,거래량,등락률,공매도,공매도비중,공매도잔고,공매도잔고비중" ∧
    toCsv sampleOut = csvLine sampleOut.cols ++ "
" ++
      concatLines (sampleOut.rows.map (fun r => csvLine (r.map renderCell))) ∧
    (toCsv sampleOut).data.head? = some '일' ∧
    ('일' : Char) ≠ '﻿' :=
  C8_csv_schema sample_pipeline rfl sample_normOhlcv rfl rfl rfl rfl (by decide)

/-! ### C10 — short-table column handling -/

theorem select_error_of_missing {d : DF} {names : List String} {c : String}
    (hc : c ∈ names) (hnot : c ∉ d.cols) : ∀ v, d.select names ≠ Except.ok v := by
  intro v h
  rcases select_spec h with ⟨-, idxs, hfa, -⟩
  rcases forall₂_mem_left hfa c hc with ⟨i, -, hidx⟩
  rcases colIdx_getElem hidx with ⟨hlt, hget⟩
  exact hnot (hget ▸ List.getElem_mem hlt)

theorem normShortMain_error_of_missing {p : PDF} {src c : String}
    {names numCols : List String}
    (hc : c = src ∨ c = "비중") (hnot : c ∉ (shortBase p).cols) :
    ∃ e, normShortMain p src names numCols = Except.error e := by
  cases hcols : (shortBase p).cols with
  | nil =>
    refine ⟨"IndexError: columns", ?_⟩
    unfold normShortMain
    rw [hcols]
  | cons c0 rest =>
    have hmem : c ∈ [if (c0 :: rest).contains "날짜" = true then "날짜" else c0,
        src, "비중"] := by
      rcases hc with rfl | rfl
      · exact List.mem_cons_of_mem _ (List.mem_cons_self _ _)
      · exact List.mem_cons_of_mem _ (List.mem_cons_of_mem _ (List.mem_cons_self _ _))
    cases hsel : (shortBase p).select
        [if (c0 :: rest).contains "날짜" = true then "날짜" else c0, src, "비중"] with
    | ok d1 => exact absurd hsel (select_error_of_missing hmem hnot d1)
    | error e =>
      refine ⟨e, ?_⟩
      unfold normShortMain
      rw [hcols]
      simp only [hsel]

/-- C10: when a non-empty short-sale table (after column-name stripping)
has no column named 날짜, its first column is taken as the date column —
the normalized 일자 values are exactly the non-missing format-images of
that first column; and selection demands the literal 공매도/공매도잔고
and 비중 columns, so a non-empty table lacking one of them makes the run
fail (KeyError propagates; the table is not treated as empty). -/
theorem C10_date_column_choice_and_required_columns {p : PDF}
    (hne : pdfEmpty p = false) :
    (∀ (src n1 n2 : String) (numCols : List String) (v : DF),
      "일자" ∉ numCols → p.WF →
      normShortMain p src ["일자", n1, n2] numCols = Except.ok v →
      (shortBase p).cols.contains "날짜" = false →
      ∃ c0 fdates, (shortBase p).cols.head? = some c0 ∧
        List.Forall₂ (fun x y => toDatetimeFmt x = Except.ok y)
          ((shortBase p).colVals c0) fdates ∧
        v.colVals "일자" = fdates.filter notNa) ∧
    (("공매도" ∉ (shortBase p).cols ∨ "비중" ∉ (shortBase p).cols) →
      (∃ e, normShort (some p) "공매도" svNames ["공매도", "공매도비중"] = Except.error e) ∧
      (∀ f : Fetched, f.sv = Except.ok (some p) → ∀ out, pipeline f ≠ Except.ok out)) ∧
    (("공매도잔고" ∉ (shortBase p).cols ∨ "비중" ∉ (shortBase p).cols) →
      ∃ e, normShort (some p) "공매도잔고" sbNames ["공매도잔고", "공매도잔고비중"] =
        Except.error e) := by
  have hnormShort : ∀ src names numCols,
      normShort (some p) src names numCols = normShortMain p src names numCols := by
    intro src names numCols
    rw [normShort, if_neg (by rw [hne]; exact Bool.false_ne_true)]
  refine ⟨?_, ?_, ?_⟩
  · intro src n1 n2 numCols v hnum hpw h hcont
    rcases normShortMain_track hnum hpw h with ⟨-, -, dateCol, fdates, -, hfirst, hfa, hvals⟩
    exact ⟨dateCol, fdates, hfirst hcont, hfa, hvals⟩
  · intro hmiss
    have herr : ∃ e, normShortMain p "공매도" svNames ["공매도", "공매도비중"] =
        Except.error e := by
      rcases hmiss with h | h
      · exact normShortMain_error_of_missing (Or.inl rfl) h
      · exact normShortMain_error_of_missing (Or.inr rfl) h
    rcases herr with ⟨e, herr⟩
    refine ⟨⟨e, by rw [hnormShort]; exact herr⟩, ?_⟩
    intro f hfsv out hpo
    rcases pipeline_inv hpo with ⟨rawO, o, rawV, v, rawB, b, -, -, hV2, hv2, -, -, -⟩
    rw [hfsv] at hV2
    have : rawV = some p := (Except.ok.inj hV2).symm
    subst this
    rw [hnormShort, herr] at hv2
    exact Except.noConfusion hv2
  · intro hmiss
    have herr : ∃ e, normShortMain p "공매도잔고" sbNames ["공매도잔고", "공매도잔고비중"] =
        Except.error e := by
      rcases hmiss with h | h
      · exact normShortMain_error_of_missing (Or.inl rfl) h
      · exact normShortMain_error_of_missing (Or.inr rfl) h
    rcases herr with ⟨e, herr⟩
    exact ⟨e, by rw [hnormShort]; exact herr⟩

/-- A non-empty short-volume result without a 날짜 column (its date is in
the first column, whose name carries stray whitespace). -/
def sampleSvNoDateName : PDF :=
  { indexName := none, index := [Cell.na], cols := ["dt ", "공매도", "비중"],
    rows := [[Cell.date 1, oneCell, oneCell]] }

/-- The normalization of `sampleSvNoDateName`. -/
def sampleSvNorm : DF :=
  { cols := ["일자", "공매도", "공매도비중"],
    rows := [[Cell.str "1970-01-02", oneCell, oneCell]] }

/-- A non-empty short-volume result lacking the 비중 column. -/
def sampleSvNoRatio : PDF :=
  { indexName := none, index := [Cell.na], cols := ["날짜", "공매도", "x"],
    rows := [[Cell.date 1, oneCell, oneCell]] }

theorem C10_witness :
    (∃ c0 fdates, (shortBase sampleSvNoDateName).cols.head? = some c0 ∧
      List.Forall₂ (fun x y => toDatetimeFmt x = Except.ok y)
        ((shortBase sampleSvNoDateName).colVals c0) fdates ∧
      sampleSvNorm.colVals "일자" = fdates.filter notNa) ∧
    (∃ e, normShort (some sampleSvNoRatio) "공매도" svNames ["공매도", "공매도비중"] =
      Except.error e) :=
  ⟨(C10_date_column_choice_and_required_columns (by decide)).1
      "공매도" "공매도" "공매도비중" ["공매도", "공매도비중"] sampleSvNorm
      (by decide) (by decide) (by decide) (by decide),
   ((C10_date_column_choice_and_required_columns (by decide)).2.1
      (Or.inr (by decide))).1⟩

/-! ### C5 — what really happens to bad dates (corrected) -/

/-- A short-volume result with an unparseable (non-missing) date. -/
def sampleSvBadDate : PDF :=
  { indexName := none, index := [Cell.na], cols := ["날짜", "공매도", "비중"],
    rows := [[Cell.str "not-a-date", oneCell, oneCell]] }

def sampleFetchBadDate : Fetched :=
  { ohlcv := Except.ok samplePrice3, sv := Except.ok (some sampleSvBadDate),
    sb := Except.ok none }

/-- C5 counterexample: a short-volume row whose date value is an
unparseable non-empty string is NOT silently dropped — `pd.to_datetime`
(errors="raise" by default) raises, and the whole run aborts with exit
code 1, contradicting the claim that such rows are dropped and the run
does not abort. -/
theorem C5_counterexample_unparseable_date_aborts :
    normShort (some sampleSvBadDate) "공매도" svNames ["공매도", "공매도비중"] =
      Except.error "could not convert to datetime: not-a-date" ∧
    runTop sampleFetchBadDate sampleWorld =
      { exitCode := 1,
        stderrLine := some "[ERROR] could not convert to datetime: not-a-date",
        world := sampleWorld } := by
  exact ⟨by decide, by decide⟩

/-- C5 (amended): during normalization of the two short-sale tables,
rows whose date value is MISSING (NaN/NaT/empty) are dropped — the
surviving 일자 values are exactly the non-missing format-images of the
selected raw date column, reformatted to YYYY-MM-DD strings — while a
run that succeeded had every raw date cell convert: an unparseable
non-missing date raises and aborts the run instead of being dropped.
The price table is exempt from the dropping: a missing price date
survives normalization. -/
theorem C5_amended_missing_dates_dropped :
    (∀ (p : PDF) (src n1 n2 : String) (numCols : List String) (v : DF),
      "일자" ∉ numCols → p.WF →
      normShortMain p src ["일자", n1, n2] numCols = Except.ok v →
      ∃ dateCol fdates,
        List.Forall₂ (fun x y => toDatetimeFmt x = Except.ok y)
          ((shortBase p).colVals dateCol) fdates ∧
        v.colVals "일자" = fdates.filter notNa ∧
        (∀ x ∈ (shortBase p).colVals dateCol, ∃ y, toDatetimeFmt x = Except.ok y) ∧
        (∀ c ∈ v.colVals "일자", ∃ z, c = Cell.str (fmtDash z))) ∧
    (∀ (raw : PDF) (p : DF), raw.WF → normOhlcv raw = Except.ok p →
      Cell.na ∈ (ohlcvRenamed raw).colVals "일자" → Cell.na ∈ p.colVals "일자") := by
  constructor
  · intro p src n1 n2 numCols v hnum hpw h
    rcases normShortMain_track hnum hpw h with ⟨-, -, dateCol, fdates, -, -, hfa, hvals⟩
    refine ⟨dateCol, fdates, hfa, hvals, ?_, ?_⟩
    · intro x hx
      rcases forall₂_mem_left hfa x hx with ⟨y, -, hy⟩
      exact ⟨y, hy⟩
    · intro c hc
      rw [hvals] at hc
      have hcn := (List.mem_filter.mp hc).2
      rcases forall₂_mem_right hfa c (List.mem_filter.mp hc).1 with ⟨x, -, hx⟩
      rcases toDatetimeFmt_ok_shape hx with rfl | hz
      · exact absurd hcn (by simp [notNa])
      · exact hz
  · intro raw p hw h hna
    exact normOhlcv_na_retained hw h hna

/-- A short-volume result with one missing-date row and one valid row. -/
def sampleSvWithNa : PDF :=
  { indexName := none, index := [Cell.na, Cell.na], cols := ["날짜", "공매도", "비중"],
    rows := [[Cell.na, oneCell, oneCell], [Cell.date 1, oneCell, oneCell]] }

/-- A price result whose first date is missing. -/
def samplePriceNa : PDF :=
  { indexName := some "날짜", index := [Cell.na, Cell.date 0],
    cols := priceNumCols,
    rows := [samplePriceRow, samplePriceRow] }

/-- The normalized price table of `samplePriceNa`: the missing-date row
is retained (missing keys sort last). -/
def samplePriceNaNorm : DF :=
  { cols := baseColsAll,
    rows := [
      [Cell.str "1970-01-01", oneCell, oneCell, oneCell, oneCell, oneCell, oneCell],
      [Cell.na, oneCell, oneCell, oneCell, oneCell, oneCell, oneCell]] }

theorem C5_witness :
    (∃ dateCol fdates,
      List.Forall₂ (fun x y => toDatetimeFmt x = Except.ok y)
        ((shortBase sampleSvWithNa).colVals dateCol) fdates ∧
      sampleSvNorm.colVals "일자" = fdates.filter notNa ∧
      (∀ x ∈ (shortBase sampleSvWithNa).colVals dateCol, ∃ y, toDatetimeFmt x = Except.ok y) ∧
      (∀ c ∈ sampleSvNorm.colVals "일자", ∃ z, c = Cell.str (fmtDash z))) ∧
    Cell.na ∈ samplePriceNaNorm.colVals "일자" :=
  ⟨C5_amended_missing_dates_dropped.1 sampleSvWithNa "공매도" "공매도" "공매도비중"
      ["공매도", "공매도비중"] sampleSvNorm (by decide) (by decide) (by decide),
   C5_amended_missing_dates_dropped.2 samplePriceNa samplePriceNaNorm
      (by decide) (by decide) (by decide)⟩

end Amicogen
